import Mathlib

/-!
# dago: field classification, extraction and statement building

A shallow embedding of `dao.go` and `helper.go`.

* Go values are modelled the way package `reflect` shows them to the code: a kind, a payload,
  and for structs the declared fields with their `column` tag and their current value.
* A Go panic is an `Except.error`; a function that can panic returns `Except Fault _`.
* The descriptor cache of `DataAccess` is explicit state, threaded through every operation.
* The store session is an external collaborator: executing a query is an answer function
  from the issued query to the error it reports, and every call is recorded in a trace.
-/

namespace Dago

/-! ## Values -/

/-- The kinds of `reflect.Kind` that occur in records or that the code switches on. -/
inductive Kind where
  | Invalid | Bool | Int | Int64 | Uint | Uint64 | Float32 | Float64 | String | Slice | Struct | Ptr
  deriving DecidableEq, Repr

/-- Payload of a leaf value. -/
inductive Data where
  | bool (b : Bool)
  | int (i : Int)
  | uint (n : Nat)
  | float (x : Rat)
  | str (s : String)
  | bytes (b : List Nat)
  | other (repr : String)
  deriving DecidableEq

mutual
/-- A Go value. `basic` is a value whose type is neither a struct nor a pointer to a struct
(numbers, strings, byte slices, ...) and is the type its kind stands for: the predeclared type
of that name for `bool`, `int`, `int64`, `uint`, `uint64`, `float32`, `float64` and `string`,
the unnamed slice type `[]byte` for Slice and an unnamed pointer type for Ptr; `named` is a
value of the defined type `tname` (as in `type Name string`) whose underlying type is the type
that `basic` of its kind stands for; `struct` is a struct held by value; `ptr` is a pointer to a
struct, where `isNil` tells whether the pointer is nil (the pointed-to record then only carries
the static type). -/
inductive Val where
  | basic (k : Kind) (d : Data)
  | named (tname : String) (k : Kind) (d : Data)
  | struct (r : Record)
  | ptr (isNil : Bool) (r : Record)
/-- A struct value: the type name and the declared fields in declaration order. The type name
is the one `reflect.Type.String()` prints, the package name and the type name; types of two
packages that are called alike print the same name. -/
inductive Record where
  | mk (tname : String) (fields : List StructField)
/-- One declared field: `sf.Name`, `sf.Tag.Get("column")`, `sf.Anonymous` and the current value.
All fields are taken to be exported, so reflect may read and set them. -/
inductive StructField where
  | mk (name : String) (column : String) (anonymous : Bool) (val : Val)
end

/-- Name of a declared field. -/
def StructField.name : StructField → String
  | .mk n _ _ _ => n

/-- Value of the `column` key of the field tag, empty when the tag has none. -/
def StructField.column : StructField → String
  | .mk _ c _ _ => c

/-- Whether the field is embedded. -/
def StructField.anonymous : StructField → Bool
  | .mk _ _ a _ => a

/-- Current value of the field. -/
def StructField.val : StructField → Val
  | .mk _ _ _ v => v

/-- Type name of a struct. -/
def Record.tname : Record → String
  | .mk t _ => t

/-- Declared fields of a struct. -/
def Record.fields : Record → List StructField
  | .mk _ fs => fs

/-- The kind `reflect.Value.Kind` reports. -/
def Val.Kind : Val → Kind
  | .basic k _ => k
  | .named _ k _ => k
  | .struct _ => Kind.Struct
  | .ptr _ _ => Kind.Ptr

/-- Result of `reflect.TypeOf(x).String()`. A `basic` value carries no type name, so its kind
stands for it; such a value is never classified. -/
def Val.typeString : Val → String
  | .basic k _ => reprStr k
  | .named t _ _ => t
  | .struct r => r.tname
  | .ptr _ r => "*" ++ r.tname

/-- A panic. `panic msg` is an explicit `panic(msg)` of the code, `reflectPanic` a panic raised
inside package reflect, `indexOutOfRange` a slice index out of range. -/
inductive Fault where
  | panic (msg : String)
  | reflectPanic
  | indexOutOfRange
  deriving DecidableEq

deriving instance DecidableEq for Except

/-! ## Column kinds and field definitions (dao.go) -/

/-- Column kind, `type colKind byte`. -/
abbrev colKind := Nat

/-- Filter only: any field. -/
abbrev ANY : colKind := 0
/-- Filter only: any key field. -/
abbrev ANY_KEY : colKind := 1
/-- A field that is no key. -/
abbrev NON_KEY : colKind := 2
/-- A partition key field. -/
abbrev PARTITION_KEY : colKind := 3
/-- A clustering key field. -/
abbrev CLUSTERING_KEY : colKind := 4

/-- Field definition for a DAO. -/
structure fieldDef where
  pos : Nat
  name : String
  col : String
  kind : colKind
  deriving DecidableEq, Repr

/-- Splitting of a character sequence at every comma. -/
def splitComma : List Char → List (List Char)
  | [] => [[]]
  | c :: cs =>
    if c = ',' then [] :: splitComma cs
    else
      match splitComma cs with
      | [] => [[c]]
      | h :: t => (c :: h) :: t

/-- The call `strings.Split(s, ",")`. -/
def Split (s : String) : List String :=
  (splitComma s.data).map String.mk

mutual
/-- The function `fieldDefs(dao)`: `reflect.TypeOf(dao).Elem()` needs a pointer, and the loop
runs over the fields of the struct it points to. -/
def fieldDefs : Val → Except Fault (List fieldDef)
  | .ptr isNil (.mk _ fields) => fieldDefsLoop isNil 0 fields []
  | .struct _ => .error .reflectPanic
  | .basic _ _ => .error .reflectPanic
  | .named _ _ _ => .error .reflectPanic
/-- The loop `for n := 0; n < t.NumField(); n++` of `fieldDefs`, at index `n` with the fields
from `n` on still to visit and `fDefs` collected so far. `isNil` tells whether `dao` is a nil
pointer, in which case `reflect.ValueOf(dao).Elem().Field(n)` panics. -/
def fieldDefsLoop (isNil : Bool) : Nat → List StructField → List fieldDef →
    Except Fault (List fieldDef)
  | _, [], fDefs => .ok fDefs
  | n, (.mk name column anonymous val) :: rest, fDefs =>
    match Split column with
    | [] => .error .indexOutOfRange
    | [col] => fieldDefsLoop isNil (n + 1) rest (fDefs ++ [⟨n, name, col, NON_KEY⟩])
    | col :: q :: _ =>
      if q = "key" then
        fieldDefsLoop isNil (n + 1) rest (fDefs ++ [⟨n, name, col, PARTITION_KEY⟩])
      else if q = "sort" then
        fieldDefsLoop isNil (n + 1) rest (fDefs ++ [⟨n, name, col, CLUSTERING_KEY⟩])
      else if q = "traverse" then
        if isNil then .error .reflectPanic
        else
          match fieldDefs val with
          | .error e => .error e
          | .ok sub => fieldDefsLoop isNil (n + 1) rest (fDefs ++ sub)
      else if anonymous then fieldDefsLoop isNil (n + 1) rest fDefs
      else .error (.panic ("Bad column tag qualifier: " ++ q))
end

/-- The fields of the test type `SimpleDao` of dao_test.go with the values of
`SimpleDao{"foo", []byte{42, 101}, 123, 11, time.Unix(42, 1), big.NewInt(42), true}`. -/
def simpleFields : List StructField :=
  [.mk "AString" "astring,key" false (.basic .String (.str "foo")),
    .mk "SomeBytes" "some_bytes,key" false (.basic .Slice (.bytes [42, 101])),
    .mk "ABigUInt" "abigint,sort" false (.basic .Uint64 (.uint 123)),
    .mk "AnInt" "anint,sort" false (.basic .Int64 (.int 11)),
    .mk "ATime" "some_date_time" false (.struct (.mk "time.Time" [
      .mk "wall" "" false (.basic .Uint64 (.uint 1)),
      .mk "ext" "" false (.basic .Int64 (.int 62135596842)),
      .mk "loc" "" false (.basic .Ptr (.other "time.Local"))])),
    .mk "ABigInt" "avarint" false (.ptr false (.mk "big.Int" [
      .mk "neg" "" false (.basic .Bool (.bool false)),
      .mk "abs" "" false (.basic .Slice (.other "nat[42]"))])),
    .mk "ABool" "abool" false (.basic .Bool (.bool true))]

/-- The test record `simple`, a pointer to that `SimpleDao`. -/
def simple : Val :=
  .ptr false (.mk "dago.SimpleDao" simpleFields)

/-- The field definitions of `SimpleDao`. -/
def simpleDefs : List fieldDef :=
  [⟨0, "AString", "astring", PARTITION_KEY⟩, ⟨1, "SomeBytes", "some_bytes", PARTITION_KEY⟩,
    ⟨2, "ABigUInt", "abigint", CLUSTERING_KEY⟩, ⟨3, "AnInt", "anint", CLUSTERING_KEY⟩,
    ⟨4, "ATime", "some_date_time", NON_KEY⟩, ⟨5, "ABigInt", "avarint", NON_KEY⟩,
    ⟨6, "ABool", "abool", NON_KEY⟩]

/-- A sub-record `&Window{Start: 5, End: 9}` of the type
`Window struct { Start int64 "wstart,sort"; End int64 "wend" }` (tags in short). -/
def window : Val :=
  .ptr false (.mk "dago.Window" [
    .mk "Start" "wstart,sort" false (.basic .Int64 (.int 5)),
    .mk "End" "wend" false (.basic .Int64 (.int 9))])

/-- The embedded field `*Window` with the tag `column:"w,traverse"`. -/
def windowField : StructField :=
  .mk "Window" "w,traverse" true window

/-- A record `&Booking{Id: "b1", Window: &Window{5, 9}, Note: "n"}` of the type
`Booking struct { Id string "id,key"; *Window "w,traverse"; Note string "note" }`. -/
def booking : Val :=
  .ptr false (.mk "dago.Booking" ([.mk "Id" "id,key" false (.basic .String (.str "b1"))] ++
    windowField :: [.mk "Note" "note" false (.basic .String (.str "n"))]))

/-! ## The cache of field definitions -/

/-- The map `fieldDefsCache map[string][]*fieldDef`: an association list in which the first
entry of a key is its current value. -/
abbrev Cache := List (String × List fieldDef)

/-- Map read `m[k]`; `none` is the nil slice a missing key yields. -/
def Cache.get (m : Cache) (k : String) : Option (List fieldDef) :=
  match m with
  | [] => none
  | (k1, v) :: rest => if k1 = k then some v else Cache.get rest k

/-- Map write `m[k] = v`. -/
def Cache.set (m : Cache) (k : String) (v : List fieldDef) : Cache :=
  (k, v) :: m

/-- The state of a `DataAccess`: its cache of field definitions. The helper and its session are
the external store. -/
structure DataAccess where
  fieldDefsCache : Cache
  deriving DecidableEq

/-- The constructor `NewDataAccess(helper)`, with an empty cache. -/
def NewDataAccess : DataAccess :=
  ⟨[]⟩

/-- The method `initFieldsDefs(dao)`: the cached definitions of the type name when there are
some, otherwise the definitions `fieldDefs` computes, which are then cached. -/
def DataAccess.initFieldsDefs (self : DataAccess) (dao : Val) :
    Except Fault (List fieldDef × DataAccess) :=
  let tname := dao.typeString
  match self.fieldDefsCache.get tname with
  | some d => .ok (d, self)
  | none =>
    match fieldDefs dao with
    | .error e => .error e
    | .ok d => .ok (d, ⟨self.fieldDefsCache.set tname d⟩)

/-- The condition `filter == ANY || filter == ANY_KEY && (fdef.kind >= PARTITION_KEY ||
fdef.kind == filter) || filter == fdef.kind` of `fieldsOfKind` and `namesOfKind`. -/
def selected (filter : colKind) (fdef : fieldDef) : Bool :=
  decide (filter = ANY) ||
    (decide (filter = ANY_KEY) &&
      (decide (fdef.kind ≥ PARTITION_KEY) || decide (fdef.kind = filter))) ||
    decide (filter = fdef.kind)

/-- The loop of `namesOfKind` over the definitions, with `names` collected so far. -/
def namesOfKindLoop (colNotName : Bool) (filter : colKind) :
    List fieldDef → List String → List String
  | [], names => names
  | fdef :: rest, names =>
    if selected filter fdef then
      if colNotName then namesOfKindLoop colNotName filter rest (names ++ [fdef.col])
      else namesOfKindLoop colNotName filter rest (names ++ [fdef.name])
    else namesOfKindLoop colNotName filter rest names

/-- The method `namesOfKind(dao, colNotName, filter)`. -/
def DataAccess.namesOfKind (self : DataAccess) (dao : Val) (colNotName : Bool)
    (filter : colKind) : Except Fault (List String × DataAccess) :=
  match self.initFieldsDefs dao with
  | .error e => .error e
  | .ok (d, self1) => .ok (namesOfKindLoop colNotName filter d [], self1)

/-- The method `FieldNamesOfKind(dao, filter)`. -/
def DataAccess.FieldNamesOfKind (self : DataAccess) (dao : Val) (filter : colKind) :
    Except Fault (List String × DataAccess) :=
  self.namesOfKind dao false filter

/-- The method `ColNamesOfKind(dao, filter)`. -/
def DataAccess.ColNamesOfKind (self : DataAccess) (dao : Val) (filter : colKind) :
    Except Fault (List String × DataAccess) :=
  self.namesOfKind dao true filter

/-- The function `StringInList(ts, l)`. -/
def StringInList (ts : String) : List String → Bool
  | [] => false
  | s :: l => if s = ts then true else StringInList ts l

/-! ## Field lookup by name (package reflect) -/

/-- Index of the first declared field called `name`, counting from `i`. -/
def directIndex (name : String) : List StructField → Nat → Option Nat
  | [], _ => none
  | f :: fs, i => if f.name = name then some i else directIndex name fs (i + 1)

/-- The struct an embedded field embeds, by value or through a pointer. -/
def StructField.embedded : StructField → Option Record
  | .mk _ _ true (.struct r) => some r
  | .mk _ _ true (.ptr _ r) => some r
  | _ => none

/-- Index paths of the fields called `name` that lie exactly `depth` embeddings below the
declared fields `fs`, whose first index is `i`. -/
def pathsAt (name : String) : Nat → List StructField → Nat → List (List Nat)
  | _, [], _ => []
  | 0, f :: fs, i =>
    (if f.name = name then [[i]] else []) ++ pathsAt name 0 fs (i + 1)
  | depth + 1, f :: fs, i =>
    (match f.embedded with
      | some r => (pathsAt name depth r.fields 0).map (fun p => i :: p)
      | none => []) ++ pathsAt name (depth + 1) fs (i + 1)

mutual
/-- Number of embedding levels below a struct. -/
def Record.embedDepth : Record → Nat
  | .mk _ fs => embedDepthFields fs
/-- Number of embedding levels below a list of declared fields. -/
def embedDepthFields : List StructField → Nat
  | [] => 0
  | (.mk _ _ anonymous v) :: fs =>
    max (if anonymous then Val.embedDepth v else 0) (embedDepthFields fs)
/-- Number of embedding levels an embedded value adds. -/
def Val.embedDepth : Val → Nat
  | .basic _ _ => 0
  | .named _ _ _ => 0
  | .struct r => Record.embedDepth r + 1
  | .ptr _ r => Record.embedDepth r + 1
end

/-- The search of `FieldByNameFunc` through the embedding levels `depths`: the first level that
has a field called `name` decides, and two fields on that level cancel each other. -/
def searchDepths (name : String) (fs : List StructField) : List Nat → Option (List Nat)
  | [] => none
  | d :: ds =>
    match pathsAt name d fs 0 with
    | [] => searchDepths name fs ds
    | [p] => some p
    | _ :: _ :: _ => none

/-- The index path `reflect.Type.FieldByName` finds: a declared field of that name first,
otherwise the unique shallowest field of that name in the embedded structs. -/
def Record.fieldPath (r : Record) (name : String) : Option (List Nat) :=
  if name = "" then none
  else
    match directIndex name r.fields 0 with
    | some i => some [i]
    | none => searchDepths name r.fields ((List.range r.embedDepth).map (fun d => d + 1))

/-- The method `reflect.Value.FieldByIndex`: follows the path, through embedded pointers, and
panics at a nil one. -/
def FieldByIndex : Record → List Nat → Except Fault Val
  | _, [] => .error .reflectPanic
  | r, [i] =>
    match r.fields[i]? with
    | some f => .ok f.val
    | none => .error .reflectPanic
  | r, i :: j :: rest =>
    match r.fields[i]? with
    | some (.mk _ _ _ (.struct r1)) => FieldByIndex r1 (j :: rest)
    | some (.mk _ _ _ (.ptr false r1)) => FieldByIndex r1 (j :: rest)
    | _ => .error .reflectPanic

/-- A `reflect.Value` that is the zero Value (`none`) or holds a struct. -/
abbrev StructValue := Option Record

/-- The call `reflect.ValueOf(dao).Elem()`: the struct a pointer points to, the zero Value for a
nil pointer, a panic for anything that is no pointer. -/
def valueElem : Val → Except Fault StructValue
  | .ptr false r => .ok (some r)
  | .ptr true _ => .ok none
  | .struct _ => .error .reflectPanic
  | .basic _ _ => .error .reflectPanic
  | .named _ _ _ => .error .reflectPanic

/-- The method `reflect.Value.FieldByName`: the field value, or the zero Value (`none`) when the
struct has no such field; a panic on the zero Value. -/
def FieldByName (v : StructValue) (name : String) : Except Fault (Option Val) :=
  match v with
  | none => .error .reflectPanic
  | some r =>
    match r.fieldPath name with
    | none => .ok none
    | some p =>
      match FieldByIndex r p with
      | .error e => .error e
      | .ok x => .ok (some x)

/-! ## Filters and their extraction -/

/-- A filter `F`: a column name and a value. -/
structure F where
  Name : String
  Value : Val

/-- The switch on `val.Kind()` in `fieldsOfKind`: a value of kind Int is read with `val.Int()`
as an `int64`, one of kind Uint with `val.Uint()` as a `uint64`, one of kind Float32 with
`val.Float()` as a `float64`, one of kind String with `val.String()` as a `string`, whatever
the type of that kind is; anything else is `val.Interface()`, which keeps the type and panics on
the zero Value. -/
def boxed : Option Val → Except Fault Val
  | none => .error .reflectPanic
  | some (.basic .Int d) => .ok (.basic .Int64 d)
  | some (.basic .Uint d) => .ok (.basic .Uint64 d)
  | some (.basic .Float32 d) => .ok (.basic .Float64 d)
  | some (.basic .String d) => .ok (.basic .String d)
  | some (.named _ .Int d) => .ok (.basic .Int64 d)
  | some (.named _ .Uint d) => .ok (.basic .Uint64 d)
  | some (.named _ .Float32 d) => .ok (.basic .Float64 d)
  | some (.named _ .String d) => .ok (.basic .String d)
  | some x => .ok x

/-- The loop of `fieldsOfKind` over the definitions, with `fields` collected so far. -/
def fieldsOfKindLoop (v : StructValue) (filter : colKind) (names : List String) :
    List fieldDef → List F → Except Fault (List F)
  | [], fields => .ok fields
  | fdef :: rest, fields =>
    if selected filter fdef then
      if names.length = 0 || StringInList fdef.name names then
        match FieldByName v fdef.name with
        | .error e => .error e
        | .ok val =>
          match boxed val with
          | .error e => .error e
          | .ok x => fieldsOfKindLoop v filter names rest (fields ++ [⟨fdef.col, x⟩])
      else fieldsOfKindLoop v filter names rest fields
    else fieldsOfKindLoop v filter names rest fields

/-- The method `fieldsOfKind(dao, filter, names)`. -/
def DataAccess.fieldsOfKind (self : DataAccess) (dao : Val) (filter : colKind)
    (names : List String) : Except Fault (List F × DataAccess) :=
  match self.initFieldsDefs dao with
  | .error e => .error e
  | .ok (d, self1) =>
    match valueElem dao with
    | .error e => .error e
    | .ok v =>
      match fieldsOfKindLoop v filter names d [] with
      | .error e => .error e
      | .ok fields => .ok (fields, self1)

/-- The method `Fields(dao)`. -/
def DataAccess.Fields (self : DataAccess) (dao : Val) : Except Fault (List F × DataAccess) :=
  self.fieldsOfKind dao ANY []

/-- The method `Keys(dao)`. -/
def DataAccess.Keys (self : DataAccess) (dao : Val) : Except Fault (List F × DataAccess) :=
  self.fieldsOfKind dao ANY_KEY []

/-- Consistency levels of the store that the code asks for. -/
inductive Consistency where
  | LocalQuorum | LocalOne | Quorum
  deriving DecidableEq

/-- What `db.Query(stmt, values...)` is given: the statement text and the bound values, where
`none` is a nil `interface{}`. -/
structure Query where
  stmt : String
  values : List (Option Val)

/-- The loop of `sepKeysAndValues` at index `n`, over the filters from `n` on; `len` is
`len(kvs)`. -/
def sepKeysAndValuesLoop (sep : String) (len : Nat) :
    Nat → List F → String → List (Option Val) → String × List (Option Val)
  | _, [], keys, values => (keys, values)
  | n, field :: rest, keys, values =>
    let keys1 := keys ++ (field.Name ++ " = ?")
    let keys2 := if (n : Int) < (len : Int) - 1 then keys1 ++ sep else keys1
    sepKeysAndValuesLoop sep len (n + 1) rest keys2 (values.set n (some field.Value))

/-- The method `sepKeysAndValues(sep, kvs...)`. -/
def sepKeysAndValues (sep : String) (kvs : List F) : String × List (Option Val) :=
  sepKeysAndValuesLoop sep kvs.length 0 kvs "" (List.replicate kvs.length none)

/-- The method `andKeysAndValues(ks...)`. -/
def andKeysAndValues (ks : List F) : String × List (Option Val) :=
  sepKeysAndValues " and " ks

/-- The method `commaKeysAndValues(ks...)`. -/
def commaKeysAndValues (ks : List F) : String × List (Option Val) :=
  sepKeysAndValues ", " ks

/-- The loop `for n := 1; n < len(fields); n++` of `save`, at index `n` over the filters from
`n` on. -/
def saveLoop : Nat → List F → String → String → List (Option Val) →
    String × String × List (Option Val)
  | _, [], keys, qs, values => (keys, qs, values)
  | n, field :: rest, keys, qs, values =>
    saveLoop (n + 1) rest (keys ++ ("," ++ field.Name)) (qs ++ ", ?")
      (values.set n (some field.Value))

/-- The method `save(table, ine, fields...)`; `fields[0]` panics when there is no filter. -/
def save (table : String) (ine : Bool) (fields : List F) : Except Fault Query :=
  match fields with
  | [] => .error .indexOutOfRange
  | first :: rest =>
    let values := (List.replicate fields.length none).set 0 (some first.Value)
    match saveLoop 1 rest first.Name "?" values with
    | (keys, qs, values1) =>
      let q := "insert into " ++ table ++ " (" ++ keys ++ ") values (" ++ qs ++ ")"
      .ok ⟨if ine then q ++ " if not exists" else q, values1⟩

/-- An error value. Errors are compared by identity, so `gocql.ErrNotFound` is a value of its
own and every other error is told apart from it. -/
inductive Error where
  | ErrNotFound
  | other (msg : String)
  deriving DecidableEq

/-- An `interface{}` handed to `Scan` or left by it: the nil interface, a non-nil pointer to a
variable that holds `target`, or anything else (a value that is no pointer, a nil pointer). -/
inductive Scanned where
  | nil
  | ref (target : Val)
  | other

/-- A row cursor `*gocql.Iter`: the rows still to come, each as the values `Scan` leaves
behind the destinations, and the error `Close` reports. -/
structure Iter where
  rows : List (List Scanned)
  closeErr : Option Error

/-- The method `iter.Scan(dest...)`: with a row to come it reports true, leaves the row behind
the destinations and moves on; without it reports false and leaves the destinations alone. -/
def Iter.Scan (it : Iter) (dest : List Scanned) : Bool × List Scanned × Iter :=
  match it.rows with
  | [] => (false, dest, it)
  | row :: rest => (true, row, { it with rows := rest })

/-- The method `iter.Close()`. -/
def Iter.Close (it : Iter) : Option Error :=
  it.closeErr

/-- The store session: what executing a query at a consistency level reports, `none` for
success, and the cursor a query opens with a page size and a consistency level (`none` when the
code sets none). -/
structure Session where
  exec : Query → Consistency → Option Error
  iter : Query → Option Nat → Option Consistency → Iter

/-- What an operation does that can be observed from outside, in order. -/
inductive Event where
  | PreSave
  | PostSave
  | PostLoad
  | exec (q : Query) (c : Consistency)
  | iter (q : Query) (pageSize : Option Nat) (c : Option Consistency)

/-- The method `CQLHelper.Save(table, fields...)`: builds the statement and executes it at
local quorum; gives the error of the store and the execution it asked for. -/
def CQLHelper.Save (db : Session) (table : String) (fields : List F) :
    Except Fault (Option Error × List Event) :=
  match save table false fields with
  | .error e => .error e
  | .ok q => .ok (db.exec q .LocalQuorum, [.exec q .LocalQuorum])

/-- The method `CQLHelper.SaveIfNotExists(table, fields...)`: the query, not executed. -/
def SaveIfNotExists (table : String) (fields : List F) : Except Fault Query :=
  save table true fields

/-! ## Records with their methods, and the save operations (dao.go) -/

/-- A `DAOLite`: the pointer it holds, its `TableName` method, and the hooks its type
implements (`none` when the type does not implement the interface). A hook may change the
record. -/
structure DAO where
  val : Val
  TableName : Val → String
  PreSave : Option (Val → Val)
  PostSave : Option (Val → Val)
  PostLoad : Option (Val → Val)

/-- Runs a hook when the type implements it: the record afterwards and the event. -/
def DAO.runHook (dao : DAO) (hook : Option (Val → Val)) (ev : Event) : DAO × List Event :=
  match hook with
  | some h => ({ dao with val := h dao.val }, [ev])
  | none => (dao, [])

/-- Outcome of a save: the returned error, the record and the cache afterwards, and the
observable events. -/
structure SaveOutcome where
  res : Option Error
  dao : DAO
  self : DataAccess
  trace : List Event

/-- The method `SaveTable(tableName, dao)`. -/
def DataAccess.SaveTable (self : DataAccess) (db : Session) (tableName : String) (dao : DAO) :
    Except Fault SaveOutcome :=
  match dao.runHook dao.PreSave .PreSave with
  | (dao1, t1) =>
    match self.Fields dao1.val with
    | .error e => .error e
    | .ok (params, self1) =>
      match CQLHelper.Save db tableName params with
      | .error e => .error e
      | .ok (res, t2) =>
        match dao1.runHook dao1.PostSave .PostSave with
        | (dao2, t3) => .ok ⟨res, dao2, self1, t1 ++ t2 ++ t3⟩

/-- The method `Save(dao)`. -/
def DataAccess.Save (self : DataAccess) (db : Session) (dao : DAO) : Except Fault SaveOutcome :=
  self.SaveTable db (dao.TableName dao.val) dao

/-- The method `SavePartial(dao, fields...)`. -/
def DataAccess.SavePartial (self : DataAccess) (db : Session) (dao : DAO)
    (fields : List String) : Except Fault SaveOutcome :=
  match dao.runHook dao.PreSave .PreSave with
  | (dao1, t1) =>
    match self.Keys dao1.val with
    | .error e => .error e
    | .ok (keys, self1) =>
      match self1.fieldsOfKind dao1.val NON_KEY fields with
      | .error e => .error e
      | .ok (others, self2) =>
        match CQLHelper.Save db (dao1.TableName dao1.val) (keys ++ others) with
        | .error e => .error e
        | .ok (res, t2) => .ok ⟨res, dao1, self2, t1 ++ t2⟩

/-! ## Writing scanned values back (dao.go) -/

/-- The zero payload of a kind. -/
def Kind.zeroData : Kind → Data
  | .Bool => .bool false
  | .Int => .int 0
  | .Int64 => .int 0
  | .Uint => .uint 0
  | .Uint64 => .uint 0
  | .Float32 => .float 0
  | .Float64 => .float 0
  | .String => .str ""
  | .Slice => .bytes []
  | .Struct => .other "zero"
  | .Ptr => .other "nil"
  | .Invalid => .other ""

mutual
/-- The value `reflect.Zero(t)` for the type `t` of a value: the zero payload of a basic kind,
a struct of zero fields, a nil pointer. -/
def Val.zero : Val → Val
  | .basic k _ => .basic k k.zeroData
  | .named t k _ => .named t k k.zeroData
  | .struct r => .struct (Record.zero r)
  | .ptr _ r => .ptr true (Record.zero r)
/-- The zero struct of the type of a struct. -/
def Record.zero : Record → Record
  | .mk t fs => .mk t (zeroFields fs)
/-- The declared fields with zero values. -/
def zeroFields : List StructField → List StructField
  | [] => []
  | (.mk n c a v) :: fs => .mk n c a (Val.zero v) :: zeroFields fs
end

mutual
/-- Whether two values have the same type: the same kind for basic values, the same defined
type for named values, the same struct type for structs and for pointers. A basic value and a
named value never have the same type. -/
def Val.sameType : Val → Val → Bool
  | .basic k _, .basic k1 _ => decide (k = k1)
  | .named t k _, .named t1 k1 _ => decide (t = t1) && decide (k = k1)
  | .struct r, .struct r1 => Record.sameType r r1
  | .ptr _ r, .ptr _ r1 => Record.sameType r r1
  | _, _ => false
/-- Whether two structs have the same type: the same name and the same declared fields. -/
def Record.sameType : Record → Record → Bool
  | .mk t fs, .mk t1 fs1 => decide (t = t1) && sameTypeFields fs fs1
/-- Whether two lists of declared fields declare the same fields. -/
def sameTypeFields : List StructField → List StructField → Bool
  | [], [] => true
  | (.mk n c a v) :: fs, (.mk n1 c1 a1 v1) :: fs1 =>
    decide (n = n1) && decide (c = c1) && decide (a = a1) && Val.sameType v v1 &&
      sameTypeFields fs fs1
  | _, _ => false
end

/-- Whether the type that `basic` of a kind stands for is a predeclared type, which has a name
(`string`, `int64`, ...); the slice and pointer types are unnamed. -/
def predeclaredKind : Kind → Bool
  | .Bool | .Int | .Int64 | .Uint | .Uint64 | .Float32 | .Float64 | .String => true
  | .Slice | .Ptr | .Struct | .Invalid => false

/-- Whether a value `x` may be stored with `reflect.Value.Set` in a place that holds `old`: the
type of `x` must be assignable to the type of `old`, which it is when the two types are the
same, or when they have the same underlying type and one of them is unnamed. Two types with a
name, such as `string` and a defined string type, are never assignable to each other. -/
def Val.assignable (x old : Val) : Bool :=
  x.sameType old ||
    match x, old with
    | .basic k _, .named _ k1 _ => !predeclaredKind k && decide (k = k1)
    | .named _ k _, .basic k1 _ => !predeclaredKind k && decide (k = k1)
    | _, _ => false

/-- The value `x` as `Set` stores it in a place that holds `old`: with the type of the place. -/
def Val.convertedTo (x old : Val) : Val :=
  match x, old with
  | .basic _ d, .named t k _ => .named t k d
  | .named _ _ d, .basic k _ => .basic k d
  | y, _ => y

/-- The struct with the field at an index path set to `x`; the path is followed as
`FieldByIndex` follows it. -/
def setByIndex : Record → List Nat → Val → Except Fault Record
  | _, [], _ => .error .reflectPanic
  | .mk t fs, [i], x =>
    match fs[i]? with
    | some (.mk n c a _) => .ok (.mk t (fs.set i (.mk n c a x)))
    | none => .error .reflectPanic
  | .mk t fs, i :: j :: rest, x =>
    match fs[i]? with
    | some (.mk n c a (.struct r1)) =>
      match setByIndex r1 (j :: rest) x with
      | .error e => .error e
      | .ok r2 => .ok (.mk t (fs.set i (.mk n c a (.struct r2))))
    | some (.mk n c a (.ptr false r1)) =>
      match setByIndex r1 (j :: rest) x with
      | .error e => .error e
      | .ok r2 => .ok (.mk t (fs.set i (.mk n c a (.ptr false r2))))
    | _ => .error .reflectPanic

/-- The struct after a field found under `field` is given the value `x`; a panic when the
struct has no such field. -/
def setPath (r : Record) (field : String) (x : Val) : Except Fault Record :=
  match r.fieldPath field with
  | some p => setByIndex r p x
  | none => .error .reflectPanic

/-- The loop of `setFieldsValues` over the field names, with the counter `valn`. For a value
that is not nil the call `sf.Set(valof.Elem())` panics when `sf` is the zero Value or the type
of the value pointed to is not assignable to the type of the field; for nil the field is set to
`reflect.Zero` of its own type. -/
def setFieldsValuesLoop : StructValue → List String → Nat → List Scanned →
    Except Fault StructValue
  | v, [], _, _ => .ok v
  | v, field :: rest, valn, values =>
    match FieldByName v field with
    | .error e => .error e
    | .ok sf =>
      match v, values[valn]?, sf with
      | _, none, _ => .error .indexOutOfRange
      | none, _, _ => .error .reflectPanic
      | _, some .other, _ => .error .reflectPanic
      | _, _, none => .error .reflectPanic
      | some r, some (.ref x), some old =>
        if x.assignable old then
          match setPath r field (x.convertedTo old) with
          | .error e => .error e
          | .ok r1 => setFieldsValuesLoop (some r1) rest (valn + 1) values
        else .error .reflectPanic
      | some r, some .nil, some old =>
        match setPath r field (Val.zero old) with
        | .error e => .error e
        | .ok r1 => setFieldsValuesLoop (some r1) rest (valn + 1) values

/-- The method `setFieldsValues(dao, fieldNames, values)`: the record afterwards. -/
def setFieldsValues (dao : Val) (fieldNames : List String) (values : List Scanned) :
    Except Fault Val :=
  match valueElem dao with
  | .error e => .error e
  | .ok v =>
    match setFieldsValuesLoop v fieldNames 0 values with
    | .error e => .error e
    | .ok none => .ok dao
    | .ok (some r) => .ok (.ptr false r)

/-- The loop of `fieldsZeroValuesArray`: for every field name a pointer to a new zero value of
the type of the field, `reflect.New(v.FieldByName(field).Type()).Interface()`. -/
def fieldsZeroValuesArrayLoop (v : StructValue) : List String → List Scanned →
    Except Fault (List Scanned)
  | [], values => .ok values
  | field :: rest, values =>
    match FieldByName v field with
    | .error e => .error e
    | .ok none => .error .reflectPanic
    | .ok (some old) => fieldsZeroValuesArrayLoop v rest (values ++ [.ref (Val.zero old)])

/-- The method `fieldsZeroValuesArray(dao, fieldNames)`. -/
def fieldsZeroValuesArray (dao : Val) (fieldNames : List String) :
    Except Fault (List Scanned) :=
  match valueElem dao with
  | .error e => .error e
  | .ok v => fieldsZeroValuesArrayLoop v fieldNames []

/-! ## Reading (helper.go and dao.go) -/

/-- The method `GetN(table, pks, fields...)`: the query it builds. -/
def GetN (table : String) (pks : List F) (fields : List String) : Query :=
  match andKeysAndValues pks with
  | (keys, values) =>
    ⟨"select " ++ String.intercalate ", " fields ++ " from " ++ table ++ " where " ++ keys,
      values⟩

/-- The query of `FullScan(table, fields...)`, which has no bound values. -/
def FullScanQuery (table : String) (fields : List String) : Query :=
  ⟨"select " ++ String.intercalate ", " fields ++ " from " ++ table, []⟩

/-- The function `ENF(err)`. -/
def ENF (err : Option Error) : Option Error :=
  if err = some Error.ErrNotFound then none else err

/-- Outcome of a get: the returned record (`none` for nil) and error, the record of the caller
and the cache afterwards, and the observable events. -/
structure GetOutcome where
  res : Option DAO
  err : Option Error
  dao : DAO
  self : DataAccess
  trace : List Event

/-- The method `GetByTable(table, keys, dao)`. -/
def DataAccess.GetByTable (self : DataAccess) (db : Session) (table : String) (keys : List F)
    (dao : DAO) : Except Fault GetOutcome :=
  match self.ColNamesOfKind dao.val NON_KEY with
  | .error e => .error e
  | .ok (colsToGet, self1) =>
    match self1.FieldNamesOfKind dao.val NON_KEY with
    | .error e => .error e
    | .ok (fieldsToGet, self2) =>
      match fieldsZeroValuesArray dao.val fieldsToGet with
      | .error e => .error e
      | .ok values =>
        match (db.iter (GetN table keys colsToGet) none none).Scan values with
        | (found, values1, iter1) =>
          match iter1.Close with
          | some err => .ok ⟨none, some err, dao, self2, [.iter (GetN table keys colsToGet) none none]⟩
          | none =>
            if !found then
              .ok ⟨none, some .ErrNotFound, dao, self2,
                [.iter (GetN table keys colsToGet) none none]⟩
            else
              match setFieldsValues dao.val fieldsToGet values1 with
              | .error e => .error e
              | .ok val1 =>
                match ({ dao with val := val1 } : DAO).runHook dao.PostLoad .PostLoad with
                | (dao2, t) =>
                  .ok ⟨some dao2, none, dao2, self2,
                    [.iter (GetN table keys colsToGet) none none] ++ t⟩

/-- The method `GetBy(keys, dao)`. -/
def DataAccess.GetBy (self : DataAccess) (db : Session) (keys : List F) (dao : DAO) :
    Except Fault GetOutcome :=
  self.GetByTable db (dao.TableName dao.val) keys dao

/-- The method `Get(dao)`. -/
def DataAccess.Get (self : DataAccess) (db : Session) (dao : DAO) : Except Fault GetOutcome :=
  match self.Keys dao.val with
  | .error e => .error e
  | .ok (keys, self1) => self1.GetBy db keys dao

/-- Outcome of opening a cursor: the cursor, the cache afterwards and the observable events. -/
structure IterOutcome where
  iter : Iter
  self : DataAccess
  trace : List Event

/-- The column list `append(ColNamesOfKind(dao, first), ColNamesOfKind(dao, CLUSTERING_KEY)...)`
that the cursor methods ask for. -/
def DataAccess.colsToGet (self : DataAccess) (dao : Val) (first : colKind) :
    Except Fault (List String × DataAccess) :=
  match self.ColNamesOfKind dao first with
  | .error e => .error e
  | .ok (c1, self1) =>
    match self1.ColNamesOfKind dao CLUSTERING_KEY with
    | .error e => .error e
    | .ok (c2, self2) => .ok (c1 ++ c2, self2)

/-- The method `FullIter(dao)`: all columns and then the clustering columns, scanned with page
size 2000 at local one. -/
def DataAccess.FullIter (self : DataAccess) (db : Session) (dao : DAO) :
    Except Fault IterOutcome :=
  match self.colsToGet dao.val ANY with
  | .error e => .error e
  | .ok (cols, self1) =>
    .ok ⟨db.iter (FullScanQuery (dao.TableName dao.val) cols) (some 2000) (some .LocalOne),
      self1, [.iter (FullScanQuery (dao.TableName dao.val) cols) (some 2000) (some .LocalOne)]⟩

/-- Outcome of `Next`: the returned flag, the record, the cursor and the cache afterwards, and
the observable events. -/
structure NextOutcome where
  next : Bool
  dao : DAO
  iter : Iter
  self : DataAccess
  trace : List Event

/-- The field list `append(FieldNamesOfKind(dao, NON_KEY), FieldNamesOfKind(dao,
CLUSTERING_KEY)...)` that `Next` populates. -/
def DataAccess.fieldsToGet (self : DataAccess) (dao : Val) :
    Except Fault (List String × DataAccess) :=
  match self.FieldNamesOfKind dao NON_KEY with
  | .error e => .error e
  | .ok (f1, self1) =>
    match self1.FieldNamesOfKind dao CLUSTERING_KEY with
    | .error e => .error e
    | .ok (f2, self2) => .ok (f1 ++ f2, self2)

/-- The method `Next(iter, dao)`. -/
def DataAccess.Next (self : DataAccess) (iter : Iter) (dao : DAO) : Except Fault NextOutcome :=
  match self.fieldsToGet dao.val with
  | .error e => .error e
  | .ok (fieldsToGet, self1) =>
    match fieldsZeroValuesArray dao.val fieldsToGet with
    | .error e => .error e
    | .ok values =>
      match iter.Scan values with
      | (next, values1, iter1) =>
        if !next then .ok ⟨false, dao, iter1, self1, []⟩
        else
          match setFieldsValues dao.val fieldsToGet values1 with
          | .error e => .error e
          | .ok val1 =>
            match ({ dao with val := val1 } : DAO).runHook dao.PostLoad .PostLoad with
            | (dao2, t) => .ok ⟨true, dao2, iter1, self1, t⟩

/-! ## Concurrent callers of `initFieldsDefs` -/

/-- Where a caller of `initFieldsDefs(dao)` stands: before the read of the cache under the
shared lock, after a miss and before the classification, after the classification and before
the write under the exclusive lock, returned with definitions, or panicked. -/
inductive Caller where
  | start (dao : Val)
  | missed (dao : Val)
  | classified (dao : Val) (d : List fieldDef)
  | returned (d : List fieldDef)
  | panicked (e : Fault)

/-- The next step of a caller on the shared cache. The read under `RLock` and the write under
`Lock` are single steps, since the lock keeps every other access to the map out while they
run; the call of `fieldDefs` between them runs outside any lock and touches no shared state. -/
def Caller.step (cache : Cache) : Caller → Caller × Cache
  | .start dao =>
    match cache.get dao.typeString with
    | some d => (.returned d, cache)
    | none => (.missed dao, cache)
  | .missed dao =>
    match fieldDefs dao with
    | .ok d => (.classified dao d, cache)
    | .error e => (.panicked e, cache)
  | .classified dao d => (.returned d, cache.set dao.typeString d)
  | .returned d => (.returned d, cache)
  | .panicked e => (.panicked e, cache)

/-- The callers run in the order of a schedule: every entry of the schedule names the caller
that takes its next step. -/
def runSchedule : List Nat → Cache × List Caller → Cache × List Caller
  | [], st => st
  | i :: rest, (cache, callers) =>
    match callers[i]? with
    | none => runSchedule rest (cache, callers)
    | some c =>
      match c.step cache with
      | (c1, cache1) => runSchedule rest (cache1, callers.set i c1)

/-- The most steps a caller still takes. -/
def Caller.remaining : Caller → Nat
  | .start _ => 3
  | .missed _ => 2
  | .classified _ _ => 1
  | .returned _ => 0
  | .panicked _ => 0

/-- A caller that works on a record of the type called `tname` whose classification is `defs`
and that holds nothing but `defs`. -/
def Caller.sound (tname : String) (defs : List fieldDef) : Caller → Prop
  | .start dao => dao.typeString = tname ∧ fieldDefs dao = .ok defs
  | .missed dao => dao.typeString = tname ∧ fieldDefs dao = .ok defs
  | .classified dao d => dao.typeString = tname ∧ d = defs
  | .returned d => d = defs
  | .panicked _ => False

/-- The state of cache and callers that every schedule keeps: the cache has no entry for the
type or the entry `defs`, every caller is sound, and once a caller has returned the cache has
the entry. -/
def cacheInvariant (tname : String) (defs : List fieldDef) (cache : Cache)
    (callers : List Caller) : Prop :=
  (cache.get tname = none ∨ cache.get tname = some defs) ∧
  (∀ c ∈ callers, c.sound tname defs) ∧
  ((∃ d, Caller.returned d ∈ callers) → cache.get tname = some defs)

/-- The key filters of the test record, as dao_test.go expects them. -/
def simpleKeys : List F :=
  [⟨"astring", .basic .String (.str "foo")⟩, ⟨"some_bytes", .basic .Slice (.bytes [42, 101])⟩,
    ⟨"abigint", .basic .Uint64 (.uint 123)⟩, ⟨"anint", .basic .Int64 (.int 11)⟩]

/-- All filters of the test record. -/
def simpleAll : List F :=
  [⟨"astring", .basic .String (.str "foo")⟩, ⟨"some_bytes", .basic .Slice (.bytes [42, 101])⟩,
    ⟨"abigint", .basic .Uint64 (.uint 123)⟩, ⟨"anint", .basic .Int64 (.int 11)⟩,
    ⟨"some_date_time", .struct (.mk "time.Time" [
      .mk "wall" "" false (.basic .Uint64 (.uint 1)),
      .mk "ext" "" false (.basic .Int64 (.int 62135596842)),
      .mk "loc" "" false (.basic .Ptr (.other "time.Local"))])⟩,
    ⟨"avarint", .ptr false (.mk "big.Int" [
      .mk "neg" "" false (.basic .Bool (.bool false)),
      .mk "abs" "" false (.basic .Slice (.other "nat[42]"))])⟩,
    ⟨"abool", .basic .Bool (.bool true)⟩]

/-- The test record as a `DAOLite`: its table is simple_dao and its type has no hooks. -/
def simpleDAO : DAO :=
  ⟨simple, fun _ => "simple_dao", none, none, none⟩

/-- A store that accepts every write and has no rows. -/
def acceptAll : Session :=
  ⟨fun _ _ => none, fun _ _ _ => ⟨[], none⟩⟩

/-- A record type without fields, `Empty struct {}`, as `&Empty{}` with the table empty. -/
def emptyDAO : DAO :=
  ⟨.ptr false (.mk "dago.Empty" []), fun _ => "empty", none, none, none⟩

/-- A record `&User{Id: "u1", Name: "ann"}` of the type `User struct { Id string "id,key";
Name string "name" }` of a package model. -/
def userA : Val :=
  .ptr false (.mk "model.User" [
    .mk "Id" "id,key" false (.basic .String (.str "u1")),
    .mk "Name" "name" false (.basic .String (.str "ann"))])

/-- A record `&User{Email: "a@b"}` of the type `User struct { Email string "email,key" }` of
another package that is also called model. -/
def userB : Val :=
  .ptr false (.mk "model.User" [
    .mk "Email" "email,key" false (.basic .String (.str "a@b"))])

/-- A record of the test type that implements all hooks: it starts as the zero record,
PreSave fills in the values of the test record, PostSave and PostLoad leave it as it is. -/
def hookedDAO : DAO :=
  ⟨.ptr false (.mk "dago.SimpleDao" (zeroFields simpleFields)), fun _ => "simple_dao",
    some (fun _ => simple), some (fun v => v), some (fun v => v)⟩

/-- A record `&Note{Text: "hello", Id: "n1"}` of the type `Note struct { Text string "text";
Id string "id,key" }`, whose ordinary field is declared before its key. -/
def note : Val :=
  .ptr false (.mk "dago.Note" [
    .mk "Text" "text" false (.basic .String (.str "hello")),
    .mk "Id" "id,key" false (.basic .String (.str "n1"))])

/-- The record `note` as a `DAOLite`: its table is note and its type has no hooks. -/
def noteDAO : DAO :=
  ⟨note, fun _ => "note", none, none, none⟩

/-- The cache agrees with the classification `defs` of `dao`: it has no entry under the type
name of `dao`, or the entry is `defs`. -/
def DataAccess.agrees (self : DataAccess) (dao : Val) (defs : List fieldDef) : Prop :=
  self.fieldDefsCache.get dao.typeString = none ∨
    self.fieldDefsCache.get dao.typeString = some defs

/-- The filter `fieldsOfKind` builds for one definition: the column of the definition with the
value that the lookup of the field name in the struct gives, read as the switch reads it. -/
def filterOf (v : StructValue) (d : fieldDef) : Except Fault F :=
  match FieldByName v d.name with
  | .error e => .error e
  | .ok val =>
    match boxed val with
    | .error e => .error e
    | .ok x => .ok ⟨d.col, x⟩

/-- The filters of a list of definitions, in order; the first panic ends it. -/
def filtersOf (v : StructValue) : List fieldDef → Except Fault (List F)
  | [] => .ok []
  | d :: ds =>
    match filterOf v d with
    | .error e => .error e
    | .ok x =>
      match filtersOf v ds with
      | .error e => .error e
      | .ok xs => .ok (x :: xs)

/-- A record type with an embedded field that has no annotation:
`Base struct {}` and `Account struct { Base; Id string "id,key" }`, as `&Account{Id: "a1"}`. -/
def account : Val :=
  .ptr false (.mk "dago.Account" [
    .mk "Base" "" true (.struct (.mk "dago.Base" [])),
    .mk "Id" "id,key" false (.basic .String (.str "a1"))])

/-! ## The annotation format, in the words of the specification -/

/-- The column name of an annotation: the text before the first comma. -/
def columnName (tag : String) : String :=
  String.mk (tag.data.takeWhile (fun c => c ≠ ','))

/-- The role qualifier of an annotation: none when the annotation has no comma, otherwise the
text between the first comma and the next one (or the end). -/
def qualifier (tag : String) : Option String :=
  if ',' ∈ tag.data then
    some (String.mk (((tag.data.dropWhile (fun c => c ≠ ',')).drop 1).takeWhile (fun c => c ≠ ',')))
  else none

/-- What the classification walk meets: a declared field, or a place where reflect cannot follow
a traversal (the value is no pointer to a struct, or the enclosing pointer is nil). -/
inductive WalkItem where
  | field (f : StructField)
  | stuck

mutual
/-- The fields of a record in walk order: declaration order, with the fields of a traversed
sub-record right after the field that holds it. -/
def walk : Val → List WalkItem
  | .ptr isNil (.mk _ fields) => walkFields isNil fields
  | .struct _ => [.stuck]
  | .basic _ _ => [.stuck]
  | .named _ _ _ => [.stuck]
/-- Walk order over a list of declared fields. -/
def walkFields (isNil : Bool) : List StructField → List WalkItem
  | [] => []
  | (.mk name column anonymous val) :: rest =>
    if qualifier column = some "traverse" then
      (.field (.mk name column anonymous val) :: (if isNil then [.stuck] else walk val)) ++
        walkFields isNil rest
    else .field (.mk name column anonymous val) :: walkFields isNil rest
end

/-- The panic the classification raises when the walk ends at an item. -/
def WalkItem.fault : WalkItem → Fault
  | .stuck => .reflectPanic
  | .field f => .panic ("Bad column tag qualifier: " ++ (qualifier f.column).getD "")

/-- What one turn of the loop of `fieldDefs` contributes for the field at index `n`: the
definitions it appends, or the panic it raises. -/
def fieldStep (isNil : Bool) (n : Nat) (f : StructField) : Except Fault (List fieldDef) :=
  match qualifier f.column with
  | none => .ok [⟨n, f.name, columnName f.column, NON_KEY⟩]
  | some q =>
    if q = "key" then .ok [⟨n, f.name, columnName f.column, PARTITION_KEY⟩]
    else if q = "sort" then .ok [⟨n, f.name, columnName f.column, CLUSTERING_KEY⟩]
    else if q = "traverse" then (if isNil then .error .reflectPanic else fieldDefs f.val)
    else if f.anonymous then .ok []
    else .error (.panic ("Bad column tag qualifier: " ++ q))

/-- A field definition that describes the declared field `f` at index `i` as the data model
has it: position, field name, column name, and the role its qualifier stands for. -/
def describes (d : fieldDef) (i : Nat) (f : StructField) : Prop :=
  d.pos = i ∧ d.name = f.name ∧ d.col = columnName f.column ∧
    (qualifier f.column = none → d.kind = NON_KEY) ∧
    (qualifier f.column = some "key" → d.kind = PARTITION_KEY) ∧
    (qualifier f.column = some "sort" → d.kind = CLUSTERING_KEY)

/-- A qualifier that is none of the recognised keywords. -/
def unrecognised (q : String) : Bool :=
  !(q = "key" || q = "sort" || q = "traverse")

/-- Whether the walk ends at this item: a place reflect cannot follow, or a field that is not
embedded and carries an unrecognised qualifier. -/
def WalkItem.stops : WalkItem → Bool
  | .stuck => true
  | .field f =>
    match qualifier f.column with
    | none => false
    | some q => !f.anonymous && unrecognised q

/-! ## Fields, roles and bound values, in the words of the specification -/

/-- The role of a field by the qualifier of its annotation: PARTITION_KEY for key, CLUSTERING_KEY
for sort, and ORDINARY (NON_KEY in the code) otherwise. -/
def roleOf (f : StructField) : colKind :=
  match qualifier f.column with
  | none => NON_KEY
  | some q => if q = "key" then PARTITION_KEY else if q = "sort" then CLUSTERING_KEY else NON_KEY

mutual
/-- The persisted fields of a record with their current values, in declaration order: every
declared field without qualifier or with the qualifier key or sort, and in the place of a field
qualified traverse the persisted fields of the record that field points to. Fields with another
qualifier are not persisted. -/
def persistedFields : Val → List StructField
  | .ptr _ (.mk _ fields) => persistedOf fields
  | .struct _ => []
  | .basic _ _ => []
  | .named _ _ _ => []
/-- The persisted fields among a list of declared fields. -/
def persistedOf : List StructField → List StructField
  | [] => []
  | (.mk name column anonymous val) :: rest =>
    match qualifier column with
    | none => .mk name column anonymous val :: persistedOf rest
    | some q =>
      if q = "key" then .mk name column anonymous val :: persistedOf rest
      else if q = "sort" then .mk name column anonymous val :: persistedOf rest
      else if q = "traverse" then persistedFields val ++ persistedOf rest
      else persistedOf rest
end

mutual
/-- The persisted fields of a record, each with the index path of its place in the record: the
index of a declared field, and for a field of a traversed record the index of the traversed
field followed by the path inside that record. -/
def persistedPaths : Val → List (List Nat × StructField)
  | .ptr _ (.mk _ fields) => persistedPathsOf 0 fields
  | .struct _ => []
  | .basic _ _ => []
  | .named _ _ _ => []
/-- The persisted fields with their places among the declared fields from index `i` on. -/
def persistedPathsOf : Nat → List StructField → List (List Nat × StructField)
  | _, [] => []
  | i, (.mk name column anonymous val) :: rest =>
    match qualifier column with
    | none => ([i], .mk name column anonymous val) :: persistedPathsOf (i + 1) rest
    | some q =>
      if q = "key" then ([i], .mk name column anonymous val) :: persistedPathsOf (i + 1) rest
      else if q = "sort" then
        ([i], .mk name column anonymous val) :: persistedPathsOf (i + 1) rest
      else if q = "traverse" then
        (persistedPaths val).map (fun pf => (i :: pf.1, pf.2)) ++ persistedPathsOf (i + 1) rest
      else persistedPathsOf (i + 1) rest
end

/-- What the declared field `f` at index `i` contributes to the persisted fields with their
places. -/
def persistedPathsAt (i : Nat) (f : StructField) : List (List Nat × StructField) :=
  match qualifier f.column with
  | none => [([i], f)]
  | some q =>
    if q = "key" then [([i], f)] else if q = "sort" then [([i], f)]
    else if q = "traverse" then (persistedPaths f.val).map (fun pf => (i :: pf.1, pf.2))
    else []

/-- A definition that stands for the field `f`: it has the name of the field, the column name of
its annotation and its role. -/
def defines (d : fieldDef) (f : StructField) : Prop :=
  d.name = f.name ∧ d.col = columnName f.column ∧ d.kind = roleOf f

/-- Whether a payload is the zero payload of a kind: false for a boolean, 0 for a number, the
empty string, the nil slice, the nil pointer; for the kinds whose values the model does not look
into, the mark that stands for their zero value. -/
def zeroPayload : Kind → Data → Bool
  | .Bool, .bool b => !b
  | .Int, .int i => decide (i = 0)
  | .Int64, .int i => decide (i = 0)
  | .Uint, .uint n => decide (n = 0)
  | .Uint64, .uint n => decide (n = 0)
  | .Float32, .float x => decide (x = 0)
  | .Float64, .float x => decide (x = 0)
  | .String, .str s => decide (s = "")
  | .Slice, .bytes b => decide (b = [])
  | .Ptr, .other s => decide (s = "nil")
  | .Struct, .other s => decide (s = "zero")
  | .Invalid, .other s => decide (s = "")
  | _, _ => false

mutual
/-- Whether a value is the zero value of its type: the zero payload for a basic or named value,
a struct all of whose fields are zero, a nil pointer (whose record carries the type only, with
zero fields). -/
def Val.isZero : Val → Bool
  | .basic k d => zeroPayload k d
  | .named _ k d => zeroPayload k d
  | .struct r => Record.isZero r
  | .ptr isNil r => isNil && Record.isZero r
/-- Whether all fields of a struct are zero. -/
def Record.isZero : Record → Bool
  | .mk _ fs => allZero fs
/-- Whether all of the declared fields are zero. -/
def allZero : List StructField → Bool
  | [] => true
  | (.mk _ _ _ v) :: fs => Val.isZero v && allZero fs
end

/-- Two index paths lead to places of which neither lies inside the other: neither path is the
beginning of the other. -/
def apart (p q : List Nat) : Prop :=
  ¬ p <+: q ∧ ¬ q <+: p

end Dago


namespace Dago

/-! ## Splitting annotations -/

theorem splitComma_ne_nil (l : List Char) : splitComma l ≠ [] := by
  cases l with
  | nil => simp [splitComma]
  | cons c cs =>
    simp only [splitComma]
    split
    · simp
    · split <;> simp

theorem splitComma_no_comma (l : List Char) (h : ',' ∉ l) : splitComma l = [l] := by
  induction l with
  | nil => simp [splitComma]
  | cons c cs ih =>
    have hc : c ≠ ',' := fun e => h (by simp [e])
    have hcs : ',' ∉ cs := fun e => h (by simp [e])
    simp [splitComma, hc, ih hcs]

theorem splitComma_comma (l : List Char) (h : ',' ∈ l) :
    splitComma l = l.takeWhile (fun c => c ≠ ',') ::
      splitComma ((l.dropWhile (fun c => c ≠ ',')).drop 1) := by
  induction l with
  | nil => simp at h
  | cons c cs ih =>
    by_cases hc : c = ','
    · subst hc
      simp [splitComma]
    · have hcs : ',' ∈ cs := by
        rcases List.mem_cons.mp h with e | e
        · exact absurd e.symm hc
        · exact e
      simp [splitComma, hc, ih hcs]

theorem splitComma_head (l : List Char) :
    ∃ t, splitComma l = l.takeWhile (fun c => c ≠ ',') :: t := by
  by_cases h : ',' ∈ l
  · exact ⟨_, splitComma_comma l h⟩
  · refine ⟨[], ?_⟩
    rw [splitComma_no_comma l h]
    congr 1
    symm
    rw [List.takeWhile_eq_self_iff]
    intro c hc
    have : c ≠ ',' := fun e => h (e ▸ hc)
    simpa using this

/-- An annotation without comma splits into its column name alone; one with a comma splits into
the column name, the qualifier, and possibly more. -/
theorem Split_cases (tag : String) :
    (qualifier tag = none ∧ Split tag = [columnName tag]) ∨
    (∃ q rest, qualifier tag = some q ∧ Split tag = columnName tag :: q :: rest) := by
  by_cases h : ',' ∈ tag.data
  · right
    obtain ⟨t, ht⟩ := splitComma_head ((tag.data.dropWhile (fun c => c ≠ ',')).drop 1)
    refine ⟨String.mk (((tag.data.dropWhile (fun c => c ≠ ',')).drop 1).takeWhile
      (fun c => c ≠ ',')), t.map String.mk, ?_, ?_⟩
    · simp only [qualifier, h, if_true]
    · unfold Split columnName
      rw [splitComma_comma tag.data h, ht]
      rfl
  · left
    refine ⟨by simp [qualifier, h], ?_⟩
    obtain ⟨t, ht⟩ := splitComma_head tag.data
    have h1 := splitComma_no_comma tag.data h
    unfold Split columnName
    rw [ht] at h1
    rw [ht, (List.cons.inj h1).2]
    rfl

/-! ## The classification loop -/

/-- One turn of the loop of `fieldDefs`, read through the annotation format. -/
theorem fieldDefsLoop_cons (isNil : Bool) (n : Nat) (name column : String) (anonymous : Bool)
    (val : Val) (rest : List StructField) (fDefs : List fieldDef) :
    fieldDefsLoop isNil n (.mk name column anonymous val :: rest) fDefs =
      match qualifier column with
      | none =>
        fieldDefsLoop isNil (n + 1) rest (fDefs ++ [⟨n, name, columnName column, NON_KEY⟩])
      | some q =>
        if q = "key" then
          fieldDefsLoop isNil (n + 1) rest (fDefs ++ [⟨n, name, columnName column, PARTITION_KEY⟩])
        else if q = "sort" then
          fieldDefsLoop isNil (n + 1) rest (fDefs ++ [⟨n, name, columnName column, CLUSTERING_KEY⟩])
        else if q = "traverse" then
          if isNil then .error .reflectPanic
          else
            match fieldDefs val with
            | .error e => .error e
            | .ok sub => fieldDefsLoop isNil (n + 1) rest (fDefs ++ sub)
        else if anonymous then fieldDefsLoop isNil (n + 1) rest fDefs
        else .error (.panic ("Bad column tag qualifier: " ++ q)) := by
  rw [fieldDefsLoop]
  rcases Split_cases column with ⟨hq, hs⟩ | ⟨q, more, hq, hs⟩
  · rw [hq, hs]
  · rw [hq, hs]

/-- One turn of the loop appends the contribution of the field and goes on. -/
theorem fieldDefsLoop_step (isNil : Bool) (n : Nat) (f : StructField)
    (rest : List StructField) (fDefs : List fieldDef) :
    fieldDefsLoop isNil n (f :: rest) fDefs =
      match fieldStep isNil n f with
      | .error e => .error e
      | .ok ds => fieldDefsLoop isNil (n + 1) rest (fDefs ++ ds) := by
  obtain ⟨name, column, anonymous, val⟩ := f
  rw [fieldDefsLoop_cons]
  unfold fieldStep
  simp only [StructField.name, StructField.column, StructField.anonymous, StructField.val]
  cases qualifier column with
  | none => rfl
  | some q =>
    simp only []
    split_ifs
    all_goals first
      | rfl
      | simp

/-- The collected definitions are only ever extended: the loop started with `fDefs` gives what
the loop started with nothing gives, after `fDefs`. -/
theorem fieldDefsLoop_acc (isNil : Bool) (fs : List StructField) :
    ∀ (n : Nat) (fDefs : List fieldDef),
      fieldDefsLoop isNil n fs fDefs =
        match fieldDefsLoop isNil n fs [] with
        | .ok ds => .ok (fDefs ++ ds)
        | .error e => .error e := by
  induction fs with
  | nil => intro n fDefs; simp [fieldDefsLoop]
  | cons f rest ih =>
    intro n fDefs
    rw [fieldDefsLoop_step, fieldDefsLoop_step isNil n f rest []]
    cases fieldStep isNil n f with
    | error e => rfl
    | ok ds =>
      simp only []
      rw [ih (n + 1) (fDefs ++ ds), ih (n + 1) ([] ++ ds)]
      cases fieldDefsLoop isNil (n + 1) rest [] <;> simp

/-- The loop over `pre ++ post` is the loop over `pre` followed by the loop over `post`. -/
theorem fieldDefsLoop_append (isNil : Bool) (pre post : List StructField) :
    ∀ (n : Nat) (fDefs : List fieldDef),
      fieldDefsLoop isNil n (pre ++ post) fDefs =
        match fieldDefsLoop isNil n pre fDefs with
        | .ok ds => fieldDefsLoop isNil (n + pre.length) post ds
        | .error e => .error e := by
  induction pre with
  | nil => intro n fDefs; simp [fieldDefsLoop]
  | cons f rest ih =>
    intro n fDefs
    have hlen : n + 1 + rest.length = n + (rest.length + 1) := by omega
    rw [List.cons_append, fieldDefsLoop_step, fieldDefsLoop_step]
    cases fieldStep isNil n f with
    | error e => rfl
    | ok ds =>
      simp only [List.length_cons]
      rw [ih, hlen]

/-! ## The walk and the configuration fault -/

theorem walkFields_cons (isNil : Bool) (f : StructField) (rest : List StructField) :
    walkFields isNil (f :: rest) =
      .field f :: ((if qualifier f.column = some "traverse" then
        (if isNil then [.stuck] else walk f.val) else []) ++ walkFields isNil rest) := by
  obtain ⟨name, column, anonymous, val⟩ := f
  rw [walkFields]
  simp only [StructField.column, StructField.val]
  split_ifs <;> simp

mutual
/-- The classification succeeds when the walk meets no stopping item, and otherwise raises the
panic of the first stopping item. -/
theorem fieldDefs_outcome : ∀ v : Val,
    (∀ w, (walk v).find? WalkItem.stops = some w → fieldDefs v = .error w.fault) ∧
    ((walk v).find? WalkItem.stops = none → ∃ ds, fieldDefs v = .ok ds)
  | .ptr isNil (.mk t fields) => by
    have h := fieldDefsLoop_outcome isNil fields 0 []
    simpa only [walk, fieldDefs] using h
  | .struct r => by simp [walk, fieldDefs, WalkItem.stops, WalkItem.fault]
  | .basic k d => by simp [walk, fieldDefs, WalkItem.stops, WalkItem.fault]
  | .named t k d => by simp [walk, fieldDefs, WalkItem.stops, WalkItem.fault]
/-- The same for the loop over the declared fields. -/
theorem fieldDefsLoop_outcome (isNil : Bool) : ∀ (fs : List StructField) (n : Nat)
    (fDefs : List fieldDef),
    (∀ w, (walkFields isNil fs).find? WalkItem.stops = some w →
      fieldDefsLoop isNil n fs fDefs = .error w.fault) ∧
    ((walkFields isNil fs).find? WalkItem.stops = none →
      ∃ ds, fieldDefsLoop isNil n fs fDefs = .ok ds)
  | [], n, fDefs => by simp [walkFields, fieldDefsLoop]
  | (.mk name column anonymous val) :: rest, n, fDefs => by
    have ihv := fieldDefs_outcome val
    have ihr := fun ds => fieldDefsLoop_outcome isNil rest (n + 1) (fDefs ++ ds)
    rw [walkFields_cons, fieldDefsLoop_step]
    unfold fieldStep
    simp only [StructField.name, StructField.column, StructField.anonymous, StructField.val,
      List.find?_cons, WalkItem.stops]
    cases hq : qualifier column with
    | none => simpa using ihr _
    | some q =>
      simp only []
      by_cases h1 : q = "key"
      · subst h1
        simpa [unrecognised] using ihr _
      by_cases h2 : q = "sort"
      · subst h2
        simpa [unrecognised] using ihr _
      by_cases h3 : q = "traverse"
      · subst h3
        cases isNil with
        | true => simp [unrecognised, WalkItem.stops, WalkItem.fault]
        | false =>
          simp only [unrecognised, List.find?_append]
          cases hv : (walk val).find? WalkItem.stops with
          | some w =>
            have := ihv.1 w hv
            simp [this, hv]
          | none =>
            obtain ⟨sub, hsub⟩ := ihv.2 hv
            simpa [hsub, hv] using ihr sub
      · cases anonymous with
        | true => simpa [unrecognised, h1, h2, h3] using ihr []
        | false => simp [unrecognised, h1, h2, h3, WalkItem.fault, StructField.column, hq]
end

/-! ## Classification of plain fields -/

theorem fieldStep_plain (isNil : Bool) (n : Nat) (f : StructField)
    (h : qualifier f.column = none ∨ qualifier f.column = some "key" ∨
      qualifier f.column = some "sort") :
    ∃ d, fieldStep isNil n f = .ok [d] ∧ describes d n f := by
  unfold fieldStep describes
  rcases h with h | h | h <;> rw [h] <;> exact ⟨_, rfl, by simp⟩

theorem fieldDefsLoop_plain (isNil : Bool) (fs : List StructField) :
    ∀ (n : Nat) (fDefs : List fieldDef),
      (∀ f ∈ fs, qualifier f.column = none ∨ qualifier f.column = some "key" ∨
        qualifier f.column = some "sort") →
      ∃ ds, fieldDefsLoop isNil n fs fDefs = .ok (fDefs ++ ds) ∧ ds.length = fs.length ∧
        ∀ i f, fs[i]? = some f → ∃ d, ds[i]? = some d ∧ describes d (n + i) f := by
  induction fs with
  | nil =>
    intro n fDefs _
    exact ⟨[], by simp [fieldDefsLoop], rfl, by simp⟩
  | cons f rest ih =>
    intro n fDefs h
    obtain ⟨d, hd, hdesc⟩ := fieldStep_plain isNil n f (h f (List.mem_cons_self _ _))
    obtain ⟨ds, hds, hlen, hall⟩ := ih (n + 1) (fDefs ++ [d])
      (fun g hg => h g (List.mem_cons_of_mem _ hg))
    refine ⟨d :: ds, ?_, by simp [hlen], ?_⟩
    · rw [fieldDefsLoop_step, hd]
      simp only []
      rw [hds]
      simp
    · intro i g hg
      cases i with
      | zero =>
        simp only [List.getElem?_cons_zero, Option.some.injEq] at hg
        subst hg
        exact ⟨d, by simp, by simpa using hdesc⟩
      | succ j =>
        simp only [List.getElem?_cons_succ] at hg
        obtain ⟨e, he, hdesc2⟩ := hall j g hg
        refine ⟨e, by simpa using he, ?_⟩
        have : n + (j + 1) = n + 1 + j := by omega
        rw [this]
        exact hdesc2

/-! ## Claims on the classification -/

/-- C4: for a record type whose fields are all non-embedded and carry no qualifier or one of the
qualifiers key and sort, classification returns exactly one definition per declared field, in
declaration order; the definition at index i has position i, the name of the i-th field, the
annotation text before the first comma as column name, and the role NON_KEY without qualifier,
PARTITION_KEY for key and CLUSTERING_KEY for sort. -/
theorem fieldDefs_plain (isNil : Bool) (tname : String) (fields : List StructField)
    (h : ∀ f ∈ fields, f.anonymous = false ∧ (qualifier f.column = none ∨
      qualifier f.column = some "key" ∨ qualifier f.column = some "sort")) :
    ∃ defs : List fieldDef, fieldDefs (.ptr isNil (.mk tname fields)) = .ok defs ∧
      defs.length = fields.length ∧
      ∀ (i : Nat) (f : StructField), fields[i]? = some f → ∃ d : fieldDef, defs[i]? = some d ∧
        d.pos = i ∧ d.name = f.name ∧ d.col = columnName f.column ∧
        (qualifier f.column = none → d.kind = NON_KEY) ∧
        (qualifier f.column = some "key" → d.kind = PARTITION_KEY) ∧
        (qualifier f.column = some "sort" → d.kind = CLUSTERING_KEY) := by
  obtain ⟨ds, hds, hlen, hall⟩ := fieldDefsLoop_plain isNil fields 0 [] (fun f hf => (h f hf).2)
  refine ⟨ds, by simpa [fieldDefs] using hds, hlen, ?_⟩
  intro i f hf
  obtain ⟨d, hd, hdesc⟩ := hall i f hf
  exact ⟨d, hd, by simpa [describes] using hdesc⟩

/-- Witness of C4: the fields of the test type SimpleDao are plain, so the classification of the
test record is one definition per field as described. -/
theorem fieldDefs_plain_witness :
    ∃ defs : List fieldDef, fieldDefs simple = .ok defs ∧
      defs.length = simpleFields.length ∧
      ∀ (i : Nat) (f : StructField), simpleFields[i]? = some f → ∃ d : fieldDef,
        defs[i]? = some d ∧
        d.pos = i ∧ d.name = f.name ∧ d.col = columnName f.column ∧
        (qualifier f.column = none → d.kind = NON_KEY) ∧
        (qualifier f.column = some "key" → d.kind = PARTITION_KEY) ∧
        (qualifier f.column = some "sort" → d.kind = CLUSTERING_KEY) :=
  fieldDefs_plain false "dago.SimpleDao" simpleFields (by decide)

/-- C5: a field qualified traverse gets no definition of its own; the classification of the
record is the definitions of the fields declared before it, then the whole classification of the
value the field holds, unchanged, then the definitions of the fields declared after it. The
same holds inside the sub-record and for the fields before and after, so nested traversals are
spliced the same way. A panic of any of the three parts is the panic of the whole. -/
theorem fieldDefs_traverse (tname : String) (pre post : List StructField) (f : StructField)
    (hq : qualifier f.column = some "traverse") :
    fieldDefs (.ptr false (.mk tname (pre ++ f :: post))) =
      (do
        let before ← fieldDefsLoop false 0 pre []
        let sub ← fieldDefs f.val
        let after ← fieldDefsLoop false (pre.length + 1) post []
        pure (before ++ sub ++ after)) := by
  have hstep : fieldStep false (0 + pre.length) f = fieldDefs f.val := by
    unfold fieldStep
    rw [hq]
    have h1 : ¬ ("traverse" = "key") := by decide
    have h2 : ¬ ("traverse" = "sort") := by decide
    simp [h1, h2]
  simp only [fieldDefs]
  rw [fieldDefsLoop_append]
  cases hpre : fieldDefsLoop false 0 pre [] with
  | error e => rfl
  | ok before =>
    simp only []
    rw [fieldDefsLoop_step, hstep]
    cases hsub : fieldDefs f.val with
    | error e => rfl
    | ok sub =>
      simp only []
      rw [fieldDefsLoop_acc]
      have hn : 0 + pre.length + 1 = pre.length + 1 := by omega
      rw [hn]
      cases hpost : fieldDefsLoop false (pre.length + 1) post [] with
      | error e => rfl
      | ok after => rfl

/-- Witness of C5: the Booking record with its traversed Window. -/
theorem fieldDefs_traverse_witness :
    fieldDefs booking = .ok [⟨0, "Id", "id", PARTITION_KEY⟩, ⟨0, "Start", "wstart", CLUSTERING_KEY⟩,
      ⟨1, "End", "wend", NON_KEY⟩, ⟨2, "Note", "note", NON_KEY⟩] :=
  (fieldDefs_traverse "dago.Booking" [.mk "Id" "id,key" false (.basic .String (.str "b1"))]
    [.mk "Note" "note" false (.basic .String (.str "n"))] windowField (by decide)).trans
    (by decide)

/-- C6: classification panics with the configuration fault exactly when the first item at which
the walk ends is a field, and that field is then not embedded and carries a qualifier other than
key, sort and traverse; the message names that qualifier; a faulting classification returns no
definitions at all. An empty qualifier, as in the annotation col followed by a comma, is
unrecognised. -/
theorem fieldDefs_fault_iff (dao : Val) :
    ((∃ msg, fieldDefs dao = .error (.panic msg)) ↔
      ∃ f, (walk dao).find? WalkItem.stops = some (.field f)) ∧
    (∀ f : StructField, (walk dao).find? WalkItem.stops = some (.field f) →
      f.anonymous = false ∧ ∃ q, qualifier f.column = some q ∧
        q ≠ "key" ∧ q ≠ "sort" ∧ q ≠ "traverse" ∧
        fieldDefs dao = .error (.panic ("Bad column tag qualifier: " ++ q))) ∧
    (∀ e, fieldDefs dao = .error e → ∀ defs, fieldDefs dao ≠ .ok defs) ∧
    fieldDefs (.ptr false (.mk "T" [.mk "A" "col," false (.basic .Int (.int 1))])) =
      .error (.panic "Bad column tag qualifier: ") := by
  obtain ⟨h1, h2⟩ := fieldDefs_outcome dao
  refine ⟨⟨?_, ?_⟩, ?_, ?_, by decide⟩
  · rintro ⟨msg, hmsg⟩
    cases hw : (walk dao).find? WalkItem.stops with
    | none =>
      obtain ⟨ds, hds⟩ := h2 hw
      rw [hds] at hmsg
      cases hmsg
    | some w =>
      cases w with
      | field f => exact ⟨f, rfl⟩
      | stuck =>
        have := h1 _ hw
        rw [this] at hmsg
        simp [WalkItem.fault] at hmsg
  · rintro ⟨f, hf⟩
    exact ⟨_, h1 _ hf⟩
  · intro f hf
    have hstop : WalkItem.stops (.field f) = true := List.find?_some hf
    have hfault := h1 _ hf
    simp only [WalkItem.stops] at hstop
    cases hq : qualifier f.column with
    | none => simp [hq] at hstop
    | some q =>
      simp only [hq, Bool.and_eq_true, Bool.not_eq_true', unrecognised, Bool.or_eq_false_iff,
        decide_eq_false_iff_not] at hstop
      refine ⟨hstop.1, q, rfl, hstop.2.1.1, hstop.2.1.2, hstop.2.2, ?_⟩
      simpa [WalkItem.fault, hq] using hfault
  · intro e he defs hd
    rw [he] at hd
    cases hd

/-! ## The roles the classification assigns -/

mutual
/-- Every definition the classification returns has one of the three roles. -/
theorem fieldDefs_kinds : ∀ (v : Val) (defs : List fieldDef), fieldDefs v = .ok defs →
    ∀ d ∈ defs, d.kind = NON_KEY ∨ d.kind = PARTITION_KEY ∨ d.kind = CLUSTERING_KEY
  | .ptr isNil (.mk t fields), defs, h =>
    fieldDefsLoop_kinds isNil fields 0 [] defs (by simp) (by simpa only [fieldDefs] using h)
  | .struct r, defs, h => by simp [fieldDefs] at h
  | .basic k x, defs, h => by simp [fieldDefs] at h
  | .named t k x, defs, h => by simp [fieldDefs] at h
/-- The same for the loop, when the definitions collected so far have one of the three roles. -/
theorem fieldDefsLoop_kinds (isNil : Bool) : ∀ (fs : List StructField) (n : Nat)
    (fDefs defs : List fieldDef),
    (∀ d ∈ fDefs, d.kind = NON_KEY ∨ d.kind = PARTITION_KEY ∨ d.kind = CLUSTERING_KEY) →
    fieldDefsLoop isNil n fs fDefs = .ok defs →
    ∀ d ∈ defs, d.kind = NON_KEY ∨ d.kind = PARTITION_KEY ∨ d.kind = CLUSTERING_KEY
  | [], n, fDefs, defs, hacc, h => by
    simp only [fieldDefsLoop, Except.ok.injEq] at h
    subst h
    exact hacc
  | (.mk name column anonymous val) :: rest, n, fDefs, defs, hacc, h => by
    have ihv := fieldDefs_kinds val
    rw [fieldDefsLoop_step] at h
    cases hs : fieldStep isNil n (.mk name column anonymous val) with
    | error e => simp [hs] at h
    | ok ds =>
      rw [hs] at h
      refine fieldDefsLoop_kinds isNil rest (n + 1) (fDefs ++ ds) defs ?_ h
      intro d hd
      rcases List.mem_append.mp hd with hd | hd
      · exact hacc d hd
      · unfold fieldStep at hs
        simp only [StructField.name, StructField.column, StructField.anonymous,
          StructField.val] at hs
        cases hq : qualifier column with
        | none =>
          simp only [hq, Except.ok.injEq] at hs
          subst hs
          simp at hd
          simp [hd]
        | some q =>
          simp only [hq] at hs
          split_ifs at hs
          all_goals first
            | exact ihv ds hs d hd
            | (simp only [Except.ok.injEq] at hs
               subst hs
               simp only [List.mem_singleton] at hd
               simp [hd])
            | (simp only [Except.ok.injEq] at hs
               subst hs
               simp at hd)
end

/-! ## The definitions and the persisted fields -/

theorem persistedOf_cons (f : StructField) (rest : List StructField) :
    persistedOf (f :: rest) =
      (match qualifier f.column with
        | none => [f]
        | some q =>
          if q = "key" then [f] else if q = "sort" then [f]
          else if q = "traverse" then persistedFields f.val else []) ++ persistedOf rest := by
  obtain ⟨name, column, anonymous, val⟩ := f
  rw [persistedOf]
  simp only [StructField.column, StructField.val]
  cases qualifier column with
  | none => rfl
  | some q =>
    simp only []
    split_ifs <;> simp

mutual
/-- The definitions the classification returns stand, one by one and in order, for the persisted
fields of the record. -/
theorem fieldDefs_persisted : ∀ (v : Val) (defs : List fieldDef), fieldDefs v = .ok defs →
    List.Forall₂ defines defs (persistedFields v)
  | .ptr isNil (.mk t fields), defs, h => by
    rw [persistedFields]
    exact fieldDefsLoop_persisted isNil fields 0 defs (by simpa only [fieldDefs] using h)
  | .struct r, defs, h => by simp [fieldDefs] at h
  | .basic k x, defs, h => by simp [fieldDefs] at h
  | .named t k x, defs, h => by simp [fieldDefs] at h
/-- The same for the loop over the declared fields. -/
theorem fieldDefsLoop_persisted (isNil : Bool) : ∀ (fs : List StructField) (n : Nat)
    (defs : List fieldDef), fieldDefsLoop isNil n fs [] = .ok defs →
    List.Forall₂ defines defs (persistedOf fs)
  | [], n, defs, h => by
    simp only [fieldDefsLoop, Except.ok.injEq] at h
    subst h
    exact List.Forall₂.nil
  | (.mk name column anonymous val) :: rest, n, defs, h => by
    have ihv := fieldDefs_persisted val
    have ihr := fieldDefsLoop_persisted isNil rest (n + 1)
    rw [fieldDefsLoop_step] at h
    cases hs : fieldStep isNil n (.mk name column anonymous val) with
    | error e => simp [hs] at h
    | ok ds =>
      rw [hs] at h
      simp only [List.nil_append] at h
      rw [fieldDefsLoop_acc] at h
      cases hr : fieldDefsLoop isNil (n + 1) rest [] with
      | error e => simp [hr] at h
      | ok ds1 =>
        simp only [hr, Except.ok.injEq] at h
        subst h
        rw [persistedOf_cons]
        refine List.rel_append ?_ (ihr ds1 hr)
        unfold fieldStep at hs
        simp only [StructField.name, StructField.column, StructField.anonymous,
          StructField.val] at hs ⊢
        cases hq : qualifier column with
        | none =>
          simp only [hq, Except.ok.injEq] at hs
          subst hs
          exact List.Forall₂.cons ⟨rfl, rfl, by simp [roleOf, StructField.column, hq]⟩
            List.Forall₂.nil
        | some q =>
          simp only [hq] at hs
          by_cases h1 : q = "key"
          · subst h1
            simp only [if_true, Except.ok.injEq] at hs
            subst hs
            simp only [if_true]
            exact List.Forall₂.cons ⟨rfl, rfl, by simp [roleOf, StructField.column, hq]⟩
              List.Forall₂.nil
          by_cases h2 : q = "sort"
          · subst h2
            have hk : ¬ ("sort" = "key") := by decide
            simp only [hk, if_true, if_false, Except.ok.injEq] at hs
            subst hs
            simp only [hk, if_true, if_false]
            exact List.Forall₂.cons
              ⟨rfl, rfl, by simp [roleOf, StructField.column, hq]⟩ List.Forall₂.nil
          by_cases h3 : q = "traverse"
          · subst h3
            have hk : ¬ ("traverse" = "key") := by decide
            have hk2 : ¬ ("traverse" = "sort") := by decide
            simp only [hk, hk2, if_true, if_false] at hs
            simp only [hk, hk2, if_true, if_false]
            cases isNil with
            | true => simp at hs
            | false =>
              simp only [Bool.false_eq_true, if_false] at hs
              exact ihv ds hs
          · simp only [h1, h2, h3, if_false] at hs ⊢
            cases anonymous with
            | true =>
              simp only [if_true, Except.ok.injEq] at hs
              subst hs
              exact List.Forall₂.nil
            | false => simp at hs
end

theorem Cache.get_set (m : Cache) (k : String) (v : List fieldDef) :
    (m.set k v).get k = some v := by
  simp [Cache.set, Cache.get]

/-- With a cache that agrees with the classification, `initFieldsDefs` returns the
classification, and the cache agrees afterwards. -/
theorem initFieldsDefs_agrees (self : DataAccess) (dao : Val) (defs : List fieldDef)
    (hdef : fieldDefs dao = .ok defs) (hc : self.agrees dao defs) :
    ∃ self1 : DataAccess, self.initFieldsDefs dao = .ok (defs, self1) ∧ self1.agrees dao defs := by
  unfold DataAccess.initFieldsDefs
  rcases hc with hc | hc
  · refine ⟨⟨self.fieldDefsCache.set dao.typeString defs⟩, ?_, Or.inr (Cache.get_set _ _ _)⟩
    simp only [hc, hdef]
  · exact ⟨self, by simp only [hc], Or.inr hc⟩

theorem namesOfKindLoop_eq (colNotName : Bool) (filter : colKind) (ds : List fieldDef) :
    ∀ names : List String, namesOfKindLoop colNotName filter ds names =
      names ++ (ds.filter (selected filter)).map
        (fun d => if colNotName then d.col else d.name) := by
  induction ds with
  | nil => intro names; simp [namesOfKindLoop]
  | cons d rest ih =>
    intro names
    simp only [namesOfKindLoop]
    by_cases hs : selected filter d = true
    · cases colNotName <;> simp [hs, ih, List.filter_cons]
    · simp [hs, ih, List.filter_cons]

theorem namesOfKind_eq (self : DataAccess) (dao : Val) (defs : List fieldDef)
    (hdef : fieldDefs dao = .ok defs) (hc : self.agrees dao defs) (colNotName : Bool)
    (filter : colKind) :
    ∃ self1 : DataAccess, self1.agrees dao defs ∧
      self.namesOfKind dao colNotName filter =
        .ok ((defs.filter (selected filter)).map
          (fun d => if colNotName then d.col else d.name), self1) := by
  obtain ⟨self1, h1, h2⟩ := initFieldsDefs_agrees self dao defs hdef hc
  refine ⟨self1, h2, ?_⟩
  unfold DataAccess.namesOfKind
  simp only [h1, namesOfKindLoop_eq, List.nil_append]

theorem selected_ANY (d : fieldDef) : selected ANY d = true := by
  simp [selected]

/-- C2: for every record whose classification is `defs`, the field names of kind ANY are the
names of all definitions and the column names of kind ANY are their columns, one entry per
definition in the order of the definitions; for the test record SimpleDao they are the two lists
of the test, asked one after the other on a new DataAccess. -/
theorem names_of_kind_ANY (self : DataAccess) (dao : Val) (defs : List fieldDef)
    (hdef : fieldDefs dao = .ok defs) (hc : self.agrees dao defs) :
    (∃ self1, self.FieldNamesOfKind dao ANY = .ok (defs.map fieldDef.name, self1)) ∧
    (∃ self1, self.ColNamesOfKind dao ANY = .ok (defs.map fieldDef.col, self1)) ∧
    (∃ da1, NewDataAccess.FieldNamesOfKind simple ANY =
        .ok (["AString", "SomeBytes", "ABigUInt", "AnInt", "ATime", "ABigInt", "ABool"], da1) ∧
      da1.ColNamesOfKind simple ANY =
        .ok (["astring", "some_bytes", "abigint", "anint", "some_date_time", "avarint",
          "abool"], da1)) := by
  have hall : defs.filter (selected ANY) = defs := by
    rw [List.filter_eq_self]
    intro d _
    exact selected_ANY d
  refine ⟨?_, ?_, ?_⟩
  · obtain ⟨self1, _, h⟩ := namesOfKind_eq self dao defs hdef hc false ANY
    refine ⟨self1, ?_⟩
    rw [DataAccess.FieldNamesOfKind, h, hall]
    simp
  · obtain ⟨self1, _, h⟩ := namesOfKind_eq self dao defs hdef hc true ANY
    refine ⟨self1, ?_⟩
    rw [DataAccess.ColNamesOfKind, h, hall]
    simp
  · exact ⟨⟨[("*dago.SimpleDao", simpleDefs)]⟩, by decide, by decide⟩

theorem fieldDefs_simple : fieldDefs simple = .ok simpleDefs := by decide

/-- Witness of C2: the test record on a new DataAccess. -/
theorem names_of_kind_ANY_witness :
    (∃ self1, NewDataAccess.FieldNamesOfKind simple ANY =
      .ok (simpleDefs.map fieldDef.name, self1)) ∧
    (∃ self1, NewDataAccess.ColNamesOfKind simple ANY =
      .ok (simpleDefs.map fieldDef.col, self1)) :=
  ⟨(names_of_kind_ANY NewDataAccess simple simpleDefs fieldDefs_simple (Or.inl rfl)).1,
    (names_of_kind_ANY NewDataAccess simple simpleDefs fieldDefs_simple (Or.inl rfl)).2.1⟩

/-! ## Extraction of filters -/

theorem fieldsOfKindLoop_eq (v : StructValue) (filter : colKind) (names : List String)
    (ds : List fieldDef) :
    ∀ fields : List F, fieldsOfKindLoop v filter names ds fields =
      match filtersOf v (ds.filter (fun d => selected filter d &&
        (decide (names.length = 0) || StringInList d.name names))) with
      | .error e => .error e
      | .ok fs => .ok (fields ++ fs) := by
  induction ds with
  | nil => intro fields; simp [fieldsOfKindLoop, filtersOf]
  | cons d rest ih =>
    intro fields
    rw [fieldsOfKindLoop, List.filter_cons]
    by_cases hs : selected filter d = true
    · by_cases hn : (decide (names.length = 0) || StringInList d.name names) = true
      · simp only [hs, hn, if_true, Bool.and_self, filtersOf, filterOf]
        cases FieldByName v d.name with
        | error e => rfl
        | ok val =>
          simp only []
          cases boxed val with
          | error e => rfl
          | ok x =>
            simp only []
            rw [ih]
            cases filtersOf v (rest.filter _) <;> simp
      · simp only [hs, hn, if_true, Bool.and_false, if_false, Bool.false_eq_true]
        rw [ih]
    · simp only [hs, if_false, Bool.false_and, Bool.false_eq_true]
      rw [ih]

theorem fieldsOfKind_eq (self : DataAccess) (isNil : Bool) (r : Record) (defs : List fieldDef)
    (hdef : fieldDefs (.ptr isNil r) = .ok defs) (hc : self.agrees (.ptr isNil r) defs)
    (filter : colKind) (names : List String) :
    ∃ self1 : DataAccess, self1.agrees (.ptr isNil r) defs ∧
      self.fieldsOfKind (.ptr isNil r) filter names =
        match filtersOf (if isNil then none else some r) (defs.filter (fun d =>
          selected filter d && (decide (names.length = 0) || StringInList d.name names))) with
        | .error e => .error e
        | .ok fs => .ok (fs, self1) := by
  obtain ⟨self1, h1, h2⟩ := initFieldsDefs_agrees self _ defs hdef hc
  refine ⟨self1, h2, ?_⟩
  unfold DataAccess.fieldsOfKind
  simp only [h1]
  cases isNil <;>
    simp only [valueElem, fieldsOfKindLoop_eq, Bool.false_eq_true, if_false, if_true] <;>
    cases filtersOf _ (defs.filter _) <;> simp

theorem filtersOf_ok_iff (v : StructValue) (ds : List fieldDef) :
    ∀ fs : List F, filtersOf v ds = .ok fs ↔
      List.Forall₂ (fun d x => filterOf v d = .ok x) ds fs := by
  induction ds with
  | nil =>
    intro fs
    simp only [filtersOf, Except.ok.injEq, List.forall₂_nil_left_iff]
    exact eq_comm
  | cons d rest ih =>
    intro fs
    simp only [filtersOf, List.forall₂_cons_left_iff]
    cases hd : filterOf v d with
    | error e => simp
    | ok x =>
      simp only []
      cases hr : filtersOf v rest with
      | error e =>
        constructor
        · intro h
          cases h
        · rintro ⟨b, u, _, hu, _⟩
          rw [← ih, hr] at hu
          cases hu
      | ok xs =>
        constructor
        · intro h
          simp only [Except.ok.injEq] at h
          exact ⟨x, xs, rfl, (ih xs).mp hr, h.symm⟩
        · rintro ⟨b, u, hb, hu, rfl⟩
          rw [← ih, hr] at hu
          cases hb
          cases hu
          rfl

theorem filterOf_ok_iff (v : StructValue) (d : fieldDef) (x : F) :
    filterOf v d = .ok x ↔
      x.Name = d.col ∧ ∃ val, FieldByName v d.name = .ok val ∧ boxed val = .ok x.Value := by
  unfold filterOf
  obtain ⟨n, w⟩ := x
  cases FieldByName v d.name with
  | error e => simp
  | ok val =>
    simp only [Except.ok.injEq, exists_eq_left']
    cases boxed val with
    | error e => simp
    | ok y =>
      simp only [Except.ok.injEq, F.mk.injEq]
      constructor
      · rintro ⟨h1, h2⟩
        exact ⟨h1.symm, h2⟩
      · rintro ⟨h1, h2⟩
        exact ⟨h1.symm, h2⟩

theorem selected_ANY_KEY (d : fieldDef)
    (hk : d.kind = NON_KEY ∨ d.kind = PARTITION_KEY ∨ d.kind = CLUSTERING_KEY) :
    selected ANY_KEY d = decide (d.kind = PARTITION_KEY ∨ d.kind = CLUSTERING_KEY) := by
  rcases hk with h | h | h <;>
    simp [selected, h, ANY, ANY_KEY, NON_KEY, PARTITION_KEY, CLUSTERING_KEY]

/-- C3: for a definition the classification returns, the role is one of NON_KEY, PARTITION_KEY
and CLUSTERING_KEY; the selection condition holds exactly when the filter is ANY, or the filter
is ANY_KEY and the role is a key role, or the role is the filter; dropping the disjunct
`fdef.kind == filter` under ANY_KEY changes nothing; and both `namesOfKind` and `fieldsOfKind`
with no names select the definitions by this condition. -/
theorem selected_spec (self : DataAccess) (isNil : Bool) (r : Record) (defs : List fieldDef)
    (hdef : fieldDefs (.ptr isNil r) = .ok defs) (hc : self.agrees (.ptr isNil r) defs)
    (filter : colKind) :
    (∀ d ∈ defs, (d.kind = NON_KEY ∨ d.kind = PARTITION_KEY ∨ d.kind = CLUSTERING_KEY) ∧
      (selected filter d = true ↔
        (filter = ANY ∨
          (filter = ANY_KEY ∧ (d.kind = PARTITION_KEY ∨ d.kind = CLUSTERING_KEY)) ∨
          d.kind = filter)) ∧
      selected filter d =
        (decide (filter = ANY) ||
          (decide (filter = ANY_KEY) && decide (d.kind ≥ PARTITION_KEY)) ||
          decide (filter = d.kind))) ∧
    (∀ colNotName : Bool, ∃ self1, self.namesOfKind (.ptr isNil r) colNotName filter =
      .ok ((defs.filter (fun d => decide (filter = ANY ∨
          (filter = ANY_KEY ∧ (d.kind = PARTITION_KEY ∨ d.kind = CLUSTERING_KEY)) ∨
          d.kind = filter))).map (fun d => if colNotName then d.col else d.name), self1)) ∧
    (∃ self1, self.fieldsOfKind (.ptr isNil r) filter [] =
      match filtersOf (if isNil then none else some r)
        (defs.filter (fun d => decide (filter = ANY ∨
          (filter = ANY_KEY ∧ (d.kind = PARTITION_KEY ∨ d.kind = CLUSTERING_KEY)) ∨
          d.kind = filter))) with
      | .error e => .error e
      | .ok fs => .ok (fs, self1)) := by
  have hsel : ∀ d ∈ defs, selected filter d = decide (filter = ANY ∨
      (filter = ANY_KEY ∧ (d.kind = PARTITION_KEY ∨ d.kind = CLUSTERING_KEY)) ∨
      d.kind = filter) := by
    intro d hd
    simp only [ANY, ANY_KEY, NON_KEY, PARTITION_KEY, CLUSTERING_KEY] at *
    rcases fieldDefs_kinds _ defs hdef d hd with h | h | h <;>
      simp only [selected, h, ANY, ANY_KEY, NON_KEY, PARTITION_KEY, CLUSTERING_KEY] <;>
      by_cases h0 : filter = 0 <;> by_cases h1 : filter = 1 <;>
      simp [h0, h1, eq_comm]
  refine ⟨?_, ?_, ?_⟩
  · intro d hd
    refine ⟨fieldDefs_kinds _ defs hdef d hd, by rw [hsel d hd]; simp, ?_⟩
    rcases fieldDefs_kinds _ defs hdef d hd with h | h | h <;>
      simp only [selected, h, ANY, ANY_KEY, NON_KEY, PARTITION_KEY, CLUSTERING_KEY] <;>
      by_cases h1 : filter = 1 <;> simp [h1]
  · intro colNotName
    obtain ⟨self1, _, h⟩ := namesOfKind_eq self _ defs hdef hc colNotName filter
    refine ⟨self1, ?_⟩
    rw [h, List.filter_congr hsel]
  · obtain ⟨self1, _, h⟩ := fieldsOfKind_eq self isNil r defs hdef hc filter []
    refine ⟨self1, ?_⟩
    rw [h]
    have : defs.filter (fun d => selected filter d &&
        (decide (([] : List String).length = 0) || StringInList d.name [])) =
        defs.filter (fun d => decide (filter = ANY ∨
          (filter = ANY_KEY ∧ (d.kind = PARTITION_KEY ∨ d.kind = CLUSTERING_KEY)) ∨
          d.kind = filter)) := by
      apply List.filter_congr
      intro d hd
      rw [hsel d hd]
      simp
    rw [this]

/-- Witness of C3: the test record on a new DataAccess, with the filter ANY_KEY. -/
theorem selected_spec_witness :
    ∃ self1, NewDataAccess.namesOfKind simple true ANY_KEY =
      .ok ((simpleDefs.filter (fun d => decide (ANY_KEY = ANY ∨
          (ANY_KEY = ANY_KEY ∧ (d.kind = PARTITION_KEY ∨ d.kind = CLUSTERING_KEY)) ∨
          d.kind = ANY_KEY))).map (fun d => if true then d.col else d.name), self1) :=
  (selected_spec NewDataAccess false (.mk "dago.SimpleDao" simpleFields) simpleDefs
    fieldDefs_simple (Or.inl rfl) ANY_KEY).2.1 true

/-- C7, evaluated on the code: the embedded field Base of the Account record has no annotation
and is not skipped; it gets a definition with an empty column name, which shows in the field
names and column names of kind ANY. -/
theorem unannotated_embedded_field_gets_definition :
    fieldDefs account = .ok [⟨0, "Base", "", NON_KEY⟩, ⟨1, "Id", "id", PARTITION_KEY⟩] ∧
    NewDataAccess.FieldNamesOfKind account ANY =
      .ok (["Base", "Id"], ⟨[("*dago.Account",
        [⟨0, "Base", "", NON_KEY⟩, ⟨1, "Id", "id", PARTITION_KEY⟩])]⟩) ∧
    NewDataAccess.ColNamesOfKind account ANY =
      .ok (["", "id"], ⟨[("*dago.Account",
        [⟨0, "Base", "", NON_KEY⟩, ⟨1, "Id", "id", PARTITION_KEY⟩])]⟩) := by
  decide

/-! ## Statement building -/

theorem intercalate_go_append (s : String) (l : List String) :
    ∀ a b : String, String.intercalate.go (a ++ b) s l = a ++ String.intercalate.go b s l := by
  induction l with
  | nil => intro a b; simp [String.intercalate.go]
  | cons x rest ih =>
    intro a b
    simp only [String.intercalate.go]
    rw [String.append_assoc a b s, String.append_assoc a (b ++ s) x, ih]

theorem intercalate_cons_cons (s a b : String) (l : List String) :
    String.intercalate s (a :: b :: l) = a ++ s ++ String.intercalate s (b :: l) := by
  simp only [String.intercalate, String.intercalate.go]
  rw [intercalate_go_append]

theorem take_succ_set (values : List (Option Val)) (x : Option Val) :
    ∀ n : Nat, n < values.length → (values.set n x).take (n + 1) = values.take n ++ [x] := by
  induction values with
  | nil => intro n h; simp at h
  | cons v rest ih =>
    intro n h
    cases n with
    | zero => simp
    | succ n =>
      simp only [List.length_cons, Nat.add_lt_add_iff_right] at h
      simp [ih n h]

theorem sepKeysAndValuesLoop_eq (sep : String) (len : Nat) (rest : List F) :
    ∀ (n : Nat) (keys : String) (values : List (Option Val)),
      n + rest.length = len → values.length = len →
      sepKeysAndValuesLoop sep len n rest keys values =
        (keys ++ String.intercalate sep (rest.map (fun f => f.Name ++ " = ?")),
          values.take n ++ rest.map (fun f => some f.Value)) := by
  induction rest with
  | nil =>
    intro n keys values hn hv
    simp only [List.length_nil, Nat.add_zero] at hn
    subst hn
    simp [sepKeysAndValuesLoop, String.intercalate, ← hv]
  | cons f rest ih =>
    intro n keys values hn hv
    simp only [List.length_cons] at hn
    have hlt : n < values.length := by omega
    rw [sepKeysAndValuesLoop, ih (n + 1) _ _ (by omega) (by simp [hv]), take_succ_set _ _ n hlt]
    cases rest with
    | nil =>
      simp only [List.length_nil] at hn
      have : ¬ ((n : Int) < (len : Int) - 1) := by omega
      simp [this, String.intercalate, String.intercalate.go]
    | cons g more =>
      simp only [List.length_cons] at hn
      have : (n : Int) < (len : Int) - 1 := by omega
      simp only [this, if_true, List.map_cons, intercalate_cons_cons, String.append_assoc,
        List.append_assoc, List.singleton_append]

/-- C8: for every separator and every list of filters, `sepKeysAndValues` returns the fragments
name = ?, one per filter in order, joined with the separator between consecutive fragments
(the empty string for no filter), and the list of the values of the filters, one per filter in
the same order; `andKeysAndValues` and `commaKeysAndValues` are this with the separators and and
comma. -/
theorem sepKeysAndValues_spec (sep : String) (kvs : List F) :
    sepKeysAndValues sep kvs =
      (String.intercalate sep (kvs.map (fun f => f.Name ++ " = ?")),
        kvs.map (fun f => some f.Value)) ∧
    (sepKeysAndValues sep []).1 = "" ∧
    (sepKeysAndValues sep kvs).2.length = kvs.length ∧
    (∀ (i : Nat) (f : F), kvs[i]? = some f → (sepKeysAndValues sep kvs).2[i]? =
      some (some f.Value)) ∧
    andKeysAndValues kvs =
      (String.intercalate " and " (kvs.map (fun f => f.Name ++ " = ?")),
        kvs.map (fun f => some f.Value)) ∧
    commaKeysAndValues kvs =
      (String.intercalate ", " (kvs.map (fun f => f.Name ++ " = ?")),
        kvs.map (fun f => some f.Value)) := by
  have h : ∀ s : String, sepKeysAndValues s kvs =
      (String.intercalate s (kvs.map (fun f => f.Name ++ " = ?")),
        kvs.map (fun f => some f.Value)) := by
    intro s
    unfold sepKeysAndValues
    rw [sepKeysAndValuesLoop_eq s kvs.length kvs 0 "" _ (by simp) (by simp)]
    simp
  refine ⟨h sep, by simp [sepKeysAndValues, sepKeysAndValuesLoop], by simp [h], ?_, h _, h _⟩
  intro i f hf
  simp [h, hf]

theorem saveLoop_eq (rest : List F) :
    ∀ (n : Nat) (keys qs : String) (values : List (Option Val)),
      n + rest.length = values.length →
      saveLoop n rest keys qs values =
        (String.intercalate.go keys "," (rest.map F.Name),
          String.intercalate.go qs ", " (List.replicate rest.length "?"),
          values.take n ++ rest.map (fun f => some f.Value)) := by
  induction rest with
  | nil =>
    intro n keys qs values hn
    simp only [List.length_nil, Nat.add_zero] at hn
    simp [saveLoop, String.intercalate.go, hn]
  | cons f rest ih =>
    intro n keys qs values hn
    simp only [List.length_cons] at hn
    have hlt : n < values.length := by omega
    have hq : qs ++ ", ?" = qs ++ ", " ++ "?" := by
      rw [String.append_assoc]
      rfl
    rw [saveLoop, ih (n + 1) _ _ _ (by simp; omega), take_succ_set _ _ n hlt]
    simp only [List.map_cons, List.length_cons, List.replicate_succ, String.intercalate.go, hq,
      String.append_assoc, List.append_assoc, List.singleton_append]

theorem save_cons (table : String) (ine : Bool) (first : F) (rest : List F) :
    save table ine (first :: rest) =
      .ok ⟨"insert into " ++ table ++ " (" ++
          String.intercalate "," ((first :: rest).map F.Name) ++ ") values (" ++
          String.intercalate ", " (List.replicate (rest.length + 1) "?") ++ ")" ++
          (if ine then " if not exists" else ""),
        (first :: rest).map (fun f => some f.Value)⟩ := by
  unfold save
  simp only []
  rw [saveLoop_eq rest 1 _ _ _ (by simp; omega)]
  cases ine <;>
    simp [String.intercalate, List.replicate_succ]

theorem filtersOf_names (v : StructValue) (ds : List fieldDef) :
    ∀ fs : List F, filtersOf v ds = .ok fs → fs.map F.Name = ds.map fieldDef.col := by
  intro fs h
  rw [filtersOf_ok_iff] at h
  induction h with
  | nil => rfl
  | cons hd _ ih =>
    rw [filterOf_ok_iff] at hd
    simp [hd.1, ih]

theorem runHook_TableName (dao : DAO) (hook : Option (Val → Val)) (ev : Event) :
    (dao.runHook hook ev).1.TableName = dao.TableName ∧
    (dao.runHook hook ev).1.PostSave = dao.PostSave := by
  cases hook <;> simp [DAO.runHook]

theorem selected_NON_KEY (d : fieldDef)
    (hk : d.kind = NON_KEY ∨ d.kind = PARTITION_KEY ∨ d.kind = CLUSTERING_KEY) :
    selected NON_KEY d = decide (d.kind = NON_KEY) := by
  rcases hk with h | h | h <;>
    simp [selected, h, ANY, ANY_KEY, NON_KEY, PARTITION_KEY, CLUSTERING_KEY]

/-- The statement of that partial save, written out. -/
theorem SavePartial_simple_stmt :
    (NewDataAccess.SavePartial acceptAll simpleDAO ["ABool"]).toOption.map
      (fun o => o.trace.map (fun e => match e with | .exec q _ => q.stmt | _ => "")) =
    some ["insert into simple_dao (astring,some_bytes,abigint,anint,abool) values (?, ?, ?, ?, ?)"] := by
  decide

/-! ## Zero values -/

theorem zeroPayload_zeroData (k : Kind) : zeroPayload k k.zeroData = true := by
  cases k <;> simp [zeroPayload, Kind.zeroData]

theorem zeroPayload_unique (k : Kind) (d d1 : Data) (h : zeroPayload k d = true)
    (h1 : zeroPayload k d1 = true) : d = d1 := by
  cases k <;> cases d <;> cases d1 <;> simp_all [zeroPayload]

mutual
/-- The value `reflect.Zero` gives is a zero value, of the type it was asked for. -/
theorem Val.zero_spec : ∀ v : Val, (Val.zero v).isZero = true ∧ (Val.zero v).sameType v = true
  | .basic k d => by simp [Val.zero, Val.isZero, Val.sameType, zeroPayload_zeroData]
  | .named t k d => by simp [Val.zero, Val.isZero, Val.sameType, zeroPayload_zeroData]
  | .struct r => by
    have := Record.zero_is_zero r
    simpa [Val.zero, Val.isZero, Val.sameType] using this
  | .ptr n r => by
    have := Record.zero_is_zero r
    simpa [Val.zero, Val.isZero, Val.sameType] using this
/-- The same for structs. -/
theorem Record.zero_is_zero : ∀ r : Record,
    (Record.zero r).isZero = true ∧ (Record.zero r).sameType r = true
  | .mk t fs => by
    have := zeroFields_spec fs
    simpa [Record.zero, Record.isZero, Record.sameType] using this
/-- The same for declared fields. -/
theorem zeroFields_spec : ∀ fs : List StructField,
    allZero (zeroFields fs) = true ∧ sameTypeFields (zeroFields fs) fs = true
  | [] => by simp [zeroFields, allZero, sameTypeFields]
  | (.mk n c a v) :: fs => by
    have h1 := Val.zero_spec v
    have h2 := zeroFields_spec fs
    simp [zeroFields, allZero, sameTypeFields, h1, h2]
end

mutual
/-- A type has one zero value: a zero value of the type of `v` is the value `reflect.Zero`
gives for that type, whatever `v` holds. -/
theorem Val.zero_unique : ∀ v a : Val, a.isZero = true → a.sameType v = true → a = Val.zero v
  | .basic k d, a, ha, hs => by
    cases a <;> simp only [Val.sameType, decide_eq_true_eq, Bool.false_eq_true] at hs
    subst hs
    simp only [Val.isZero] at ha
    rw [Val.zero, zeroPayload_unique _ _ _ ha (zeroPayload_zeroData _)]
  | .named t k d, a, ha, hs => by
    cases a <;> simp only [Val.sameType, decide_eq_true_eq, Bool.false_eq_true,
      Bool.and_eq_true] at hs
    obtain ⟨rfl, rfl⟩ := hs
    simp only [Val.isZero] at ha
    rw [Val.zero, zeroPayload_unique _ _ _ ha (zeroPayload_zeroData _)]
  | .struct r, a, ha, hs => by
    cases a <;> simp only [Val.sameType, Bool.false_eq_true] at hs
    simp only [Val.isZero] at ha
    rw [Val.zero, Record.zero_only r _ ha hs]
  | .ptr n r, a, ha, hs => by
    cases a <;> simp only [Val.sameType, Bool.false_eq_true] at hs
    simp only [Val.isZero, Bool.and_eq_true] at ha
    rw [Val.zero, Record.zero_only r _ ha.2 hs, ha.1]
/-- The same for structs. -/
theorem Record.zero_only : ∀ r r1 : Record, r1.isZero = true → r1.sameType r = true →
    r1 = Record.zero r
  | .mk t fs, .mk t1 fs1, ha, hs => by
    simp only [Record.sameType, Bool.and_eq_true, decide_eq_true_eq] at hs
    simp only [Record.isZero] at ha
    rw [Record.zero, hs.1, allZero_unique fs fs1 ha hs.2]
/-- The same for declared fields. -/
theorem allZero_unique : ∀ fs fs1 : List StructField, allZero fs1 = true →
    sameTypeFields fs1 fs = true → fs1 = zeroFields fs
  | [], [], _, _ => rfl
  | [], _ :: _, _, hs => by simp [sameTypeFields] at hs
  | _ :: _, [], _, hs => by simp [sameTypeFields] at hs
  | (.mk n c a v) :: fs, (.mk n1 c1 a1 v1) :: fs1, ha, hs => by
    simp only [sameTypeFields, Bool.and_eq_true, decide_eq_true_eq] at hs
    simp only [allZero, Bool.and_eq_true] at ha
    obtain ⟨⟨⟨⟨rfl, rfl⟩, rfl⟩, hv⟩, hrest⟩ := hs
    rw [zeroFields, Val.zero_unique v v1 ha.1 hv, allZero_unique fs fs1 ha.2 hrest]
end

/-! ## Population of a record -/

mutual
/-- Every value has the type it has. -/
theorem Val.sameType_refl : ∀ v : Val, v.sameType v = true
  | .basic k d => by simp [Val.sameType]
  | .named t k d => by simp [Val.sameType]
  | .struct r => by simpa [Val.sameType] using Record.sameType_self r
  | .ptr n r => by simpa [Val.sameType] using Record.sameType_self r
/-- The same for structs. -/
theorem Record.sameType_self : ∀ r : Record, r.sameType r = true
  | .mk t fs => by simpa [Record.sameType] using sameTypeFields_refl fs
/-- The same for declared fields. -/
theorem sameTypeFields_refl : ∀ fs : List StructField, sameTypeFields fs fs = true
  | [] => by simp [sameTypeFields]
  | (.mk n c a v) :: fs => by
    simp [sameTypeFields, Val.sameType_refl v, sameTypeFields_refl fs]
end

mutual
/-- Values of the same type embed equally deep. -/
theorem Val.embedDepth_eq : ∀ a b : Val, a.sameType b = true → a.embedDepth = b.embedDepth
  | .basic k d, b, h => by
    cases b <;> simp only [Val.sameType, Bool.false_eq_true] at h
    simp [Val.embedDepth]
  | .named t k d, b, h => by
    cases b <;> simp only [Val.sameType, Bool.false_eq_true] at h
    simp [Val.embedDepth]
  | .struct r, b, h => by
    cases b <;> simp only [Val.sameType, Bool.false_eq_true] at h
    simp [Val.embedDepth, Record.embedDepth_same r _ h]
  | .ptr n r, b, h => by
    cases b <;> simp only [Val.sameType, Bool.false_eq_true] at h
    simp [Val.embedDepth, Record.embedDepth_same r _ h]
/-- The same for structs. -/
theorem Record.embedDepth_same : ∀ r r1 : Record, r.sameType r1 = true →
    r.embedDepth = r1.embedDepth
  | .mk t fs, .mk t1 fs1, h => by
    simp only [Record.sameType, Bool.and_eq_true] at h
    simp [Record.embedDepth, embedDepthFields_eq fs fs1 h.2]
/-- The same for declared fields. -/
theorem embedDepthFields_eq : ∀ fs fs1 : List StructField, sameTypeFields fs fs1 = true →
    embedDepthFields fs = embedDepthFields fs1
  | [], [], _ => rfl
  | [], _ :: _, h => by simp [sameTypeFields] at h
  | _ :: _, [], h => by simp [sameTypeFields] at h
  | (.mk n c a v) :: fs, (.mk n1 c1 a1 v1) :: fs1, h => by
    simp only [sameTypeFields, Bool.and_eq_true, decide_eq_true_eq] at h
    obtain ⟨⟨⟨⟨_, _⟩, rfl⟩, hv⟩, hrest⟩ := h
    simp [embedDepthFields, Val.embedDepth_eq v v1 hv, embedDepthFields_eq fs fs1 hrest]
end

theorem persistedPathsOf_cons (i : Nat) (f : StructField) (rest : List StructField) :
    persistedPathsOf i (f :: rest) = persistedPathsAt i f ++ persistedPathsOf (i + 1) rest := by
  obtain ⟨name, column, anonymous, val⟩ := f
  rw [persistedPathsOf, persistedPathsAt]
  simp only [StructField.column, StructField.val]
  cases qualifier column with
  | none => rfl
  | some q =>
    simp only []
    split_ifs <;> simp

mutual
/-- The persisted fields with their places are the persisted fields, in the same order. -/
theorem persistedPaths_snd : ∀ v : Val,
    (persistedPaths v).map Prod.snd = persistedFields v
  | .ptr n (.mk t fields) => by
    rw [persistedPaths, persistedFields]
    exact persistedPathsOf_snd fields 0
  | .struct r => rfl
  | .basic k d => rfl
  | .named t k d => rfl
/-- The same for the declared fields. -/
theorem persistedPathsOf_snd : ∀ (fs : List StructField) (i : Nat),
    (persistedPathsOf i fs).map Prod.snd = persistedOf fs
  | [], i => rfl
  | (.mk name column anonymous val) :: rest, i => by
    have ihv := persistedPaths_snd val
    have ihr := persistedPathsOf_snd rest (i + 1)
    rw [persistedPathsOf_cons, persistedOf_cons, List.map_append, ihr]
    congr 1
    simp only [persistedPathsAt, StructField.column, StructField.val]
    cases qualifier column with
    | none => rfl
    | some q =>
      simp only []
      split_ifs
      · rfl
      · rfl
      · rw [List.map_map, ← ihv]
        rfl
      · rfl
end

theorem apart_of_head_ne (i k : Nat) (p q : List Nat) (h : i ≠ k) : apart (i :: p) (k :: q) := by
  constructor
  · intro hp
    obtain ⟨s, hs⟩ := hp
    simp only [List.cons_append, List.cons.injEq] at hs
    exact h hs.1
  · intro hq
    obtain ⟨s, hs⟩ := hq
    simp only [List.cons_append, List.cons.injEq] at hs
    exact h hs.1.symm

theorem apart_cons_cons (i : Nat) (p q : List Nat) (h : apart p q) : apart (i :: p) (i :: q) :=
  ⟨fun hp => h.1 ((List.prefix_cons_inj i).mp hp), fun hq => h.2 ((List.prefix_cons_inj i).mp hq)⟩

theorem persistedPathsAt_head (i : Nat) (f : StructField) :
    ∀ a ∈ persistedPathsAt i f, ∃ p : List Nat, a.1 = i :: p := by
  intro a ha
  unfold persistedPathsAt at ha
  cases hq : qualifier f.column with
  | none =>
    simp only [hq, List.mem_singleton] at ha
    exact ⟨[], by rw [ha]⟩
  | some q =>
    simp only [hq] at ha
    split_ifs at ha
    · simp only [List.mem_singleton] at ha
      exact ⟨[], by rw [ha]⟩
    · simp only [List.mem_singleton] at ha
      exact ⟨[], by rw [ha]⟩
    · obtain ⟨b, _, rfl⟩ := List.mem_map.mp ha
      exact ⟨b.1, rfl⟩
    · simp at ha

mutual
/-- No persisted field lies inside another: the places of the persisted fields are pairwise
apart. -/
theorem persistedPaths_apart : ∀ v : Val,
    (persistedPaths v).Pairwise (fun a b => apart a.1 b.1)
  | .ptr n (.mk t fields) => by
    rw [persistedPaths]
    exact (persistedPathsOf_apart fields 0).1
  | .struct r => by simp [persistedPaths]
  | .basic k d => by simp [persistedPaths]
  | .named t k d => by simp [persistedPaths]
/-- The same for the declared fields from index `i` on, whose places begin with an index from
`i` on. -/
theorem persistedPathsOf_apart : ∀ (fs : List StructField) (i : Nat),
    (persistedPathsOf i fs).Pairwise (fun a b => apart a.1 b.1) ∧
    ∀ a ∈ persistedPathsOf i fs, ∃ (k : Nat) (p : List Nat), i ≤ k ∧ a.1 = k :: p
  | [], i => by simp [persistedPathsOf]
  | (.mk name column anonymous val) :: rest, i => by
    have ihv := persistedPaths_apart val
    obtain ⟨ihr1, ihr2⟩ := persistedPathsOf_apart rest (i + 1)
    rw [persistedPathsOf_cons]
    have hhead := persistedPathsAt_head i (.mk name column anonymous val)
    have hpair : (persistedPathsAt i (.mk name column anonymous val)).Pairwise
        (fun a b => apart a.1 b.1) := by
      unfold persistedPathsAt
      simp only [StructField.column, StructField.val]
      cases hq : qualifier column with
      | none => simp
      | some q =>
        simp only []
        split_ifs
        · simp
        · simp
        · rw [List.pairwise_map]
          exact ihv.imp (fun h => apart_cons_cons i _ _ h)
        · simp
    constructor
    · rw [List.pairwise_append]
      refine ⟨hpair, ihr1, ?_⟩
      intro a ha b hb
      obtain ⟨p, hp⟩ := hhead a ha
      obtain ⟨k, q, hk, hq⟩ := ihr2 b hb
      rw [hp, hq]
      exact apart_of_head_ne i k p q (by omega)
    · intro a ha
      rcases List.mem_append.mp ha with ha | ha
      · obtain ⟨p, hp⟩ := hhead a ha
        exact ⟨i, p, Nat.le_refl _, hp⟩
      · obtain ⟨k, q, hk, hq⟩ := ihr2 a ha
        exact ⟨k, q, by omega, hq⟩
end

/-! ## Population at the places the lookup by name leads to -/

/-- C16, evaluated on the code: the record type Empty classifies to no definition, its key
string is empty, and Save on it panics with an index out of range, because `save` reads
`fields[0]` of the empty filter list. -/
theorem save_of_empty_record_panics :
    fieldDefs emptyDAO.val = .ok [] ∧
    (sepKeysAndValues " and " []).1 = "" ∧
    save "empty" false [] = .error .indexOutOfRange ∧
    NewDataAccess.Save acceptAll emptyDAO = .error .indexOutOfRange := by
  refine ⟨by decide, by decide, rfl, rfl⟩

/-- C17: `ENF` gives nil for `gocql.ErrNotFound` and gives back every other error, and nil,
unchanged. -/
theorem ENF_spec (e : Option Error) (msg : String) :
    ENF e = (if e = some Error.ErrNotFound then none else e) ∧
    ENF (some Error.ErrNotFound) = none ∧
    ENF none = none ∧
    ENF (some (Error.other msg)) = some (Error.other msg) := by
  refine ⟨rfl, rfl, rfl, ?_⟩
  simp [ENF]

/-- C19, evaluated on the code: two record types of different packages that are both called
model.User share the cache key, so after a lookup of the first the lookup of the second returns
the definitions of the first and not its own classification. -/
theorem cache_returns_entry_of_other_type :
    userA.typeString = userB.typeString ∧
    NewDataAccess.initFieldsDefs userA =
      .ok ([⟨0, "Id", "id", PARTITION_KEY⟩, ⟨1, "Name", "name", NON_KEY⟩],
        ⟨[("*model.User", [⟨0, "Id", "id", PARTITION_KEY⟩, ⟨1, "Name", "name", NON_KEY⟩])]⟩) ∧
    DataAccess.initFieldsDefs
        ⟨[("*model.User", [⟨0, "Id", "id", PARTITION_KEY⟩, ⟨1, "Name", "name", NON_KEY⟩])]⟩
        userB =
      .ok ([⟨0, "Id", "id", PARTITION_KEY⟩, ⟨1, "Name", "name", NON_KEY⟩],
        ⟨[("*model.User", [⟨0, "Id", "id", PARTITION_KEY⟩, ⟨1, "Name", "name", NON_KEY⟩])]⟩) ∧
    fieldDefs userB = .ok [⟨0, "Email", "email", PARTITION_KEY⟩] := by
  decide

/-- C20, evaluated on the code: for the test record FullIter asks for nine columns, all seven
and then the two clustering columns again, while Next populates five fields, the three that are
no keys and the two clustering keys; the first column asked for is astring and the first field
populated is ATime. -/
theorem FullIter_not_aligned_with_Next :
    (NewDataAccess.FullIter acceptAll simpleDAO).toOption.map
      (fun o => o.trace.map (fun e => match e with | .iter q _ _ => q.stmt | _ => "")) =
      some ["select astring, some_bytes, abigint, anint, some_date_time, avarint, abool, " ++
        "abigint, anint from simple_dao"] ∧
    (NewDataAccess.colsToGet simple ANY).toOption.map Prod.fst =
      some ["astring", "some_bytes", "abigint", "anint", "some_date_time", "avarint", "abool",
        "abigint", "anint"] ∧
    (NewDataAccess.fieldsToGet simple).toOption.map Prod.fst =
      some ["ATime", "ABigInt", "ABool", "ABigUInt", "AnInt"] := by
  decide

/-! ## Reading -/

theorem selected_role (filter : colKind) (d : fieldDef)
    (hf : filter = NON_KEY ∨ filter = PARTITION_KEY ∨ filter = CLUSTERING_KEY) :
    selected filter d = decide (d.kind = filter) := by
  rcases hf with h | h | h <;>
    simp [selected, h, ANY, ANY_KEY, NON_KEY, PARTITION_KEY, CLUSTERING_KEY, eq_comm]

/-- With a cache that agrees with the classification, the names of a role are the names of
the definitions of that role. -/
theorem namesOfKind_role (self : DataAccess) (dao : Val) (defs : List fieldDef)
    (hdef : fieldDefs dao = .ok defs) (hc : self.agrees dao defs) (colNotName : Bool)
    (filter : colKind)
    (hf : filter = NON_KEY ∨ filter = PARTITION_KEY ∨ filter = CLUSTERING_KEY) :
    ∃ self1 : DataAccess, self1.agrees dao defs ∧
      self.namesOfKind dao colNotName filter =
        .ok ((defs.filter (fun d => decide (d.kind = filter))).map
          (fun d => if colNotName then d.col else d.name), self1) := by
  obtain ⟨self1, h1, h2⟩ := namesOfKind_eq self dao defs hdef hc colNotName filter
  refine ⟨self1, h1, ?_⟩
  rw [h2]
  have : defs.filter (selected filter) = defs.filter (fun d => decide (d.kind = filter)) :=
    List.filter_congr (fun d _ => selected_role filter d hf)
  rw [this]

/-- The columns and the field names that `GetByTable` works with. -/
theorem get_names (self : DataAccess) (dao : Val) (defs : List fieldDef)
    (hdef : fieldDefs dao = .ok defs) (hc : self.agrees dao defs) :
    ∃ self1 self2 : DataAccess,
      self.ColNamesOfKind dao NON_KEY =
        .ok ((defs.filter (fun d => decide (d.kind = NON_KEY))).map fieldDef.col, self1) ∧
      self1.FieldNamesOfKind dao NON_KEY =
        .ok ((defs.filter (fun d => decide (d.kind = NON_KEY))).map fieldDef.name, self2) := by
  obtain ⟨self1, hc1, h1⟩ := namesOfKind_role self dao defs hdef hc true NON_KEY (Or.inl rfl)
  obtain ⟨self2, _, h2⟩ := namesOfKind_role self1 dao defs hdef hc1 false NON_KEY (Or.inl rfl)
  refine ⟨self1, self2, ?_, ?_⟩
  · rw [DataAccess.ColNamesOfKind, h1]
    simp
  · rw [DataAccess.FieldNamesOfKind, h2]
    simp

/-- C13: for a record whose fields that are no keys can be read, and whatever cursor the store
opens for the query: when Close reports an error, GetByTable returns that error and no record;
otherwise, when there is no row, it returns `gocql.ErrNotFound` and no record; in both cases the
record is as it was and the only event is the query, so PostLoad is not run. When there is a row
and Close reports no error, the fields that are no keys are populated from the row, PostLoad
is run on the populated record and that record is returned with no error. GetBy is GetByTable
with the table of the record, and Get is GetBy with the keys of the record. -/
theorem GetByTable_spec (self : DataAccess) (db : Session) (table : String) (keys : List F)
    (dao : DAO) (defs : List fieldDef) (values : List Scanned)
    (hdef : fieldDefs dao.val = .ok defs) (hc : self.agrees dao.val defs)
    (hz : fieldsZeroValuesArray dao.val
      ((defs.filter (fun d => decide (d.kind = NON_KEY))).map fieldDef.name) = .ok values) :
    ∃ self1 : DataAccess,
      (∀ err : Error,
        (db.iter (GetN table keys
          ((defs.filter (fun d => decide (d.kind = NON_KEY))).map fieldDef.col))
          none none).closeErr = some err →
        self.GetByTable db table keys dao = .ok ⟨none, some err, dao, self1,
          [.iter (GetN table keys
            ((defs.filter (fun d => decide (d.kind = NON_KEY))).map fieldDef.col))
            none none]⟩) ∧
      ((db.iter (GetN table keys
          ((defs.filter (fun d => decide (d.kind = NON_KEY))).map fieldDef.col))
          none none).closeErr = none →
        (db.iter (GetN table keys
          ((defs.filter (fun d => decide (d.kind = NON_KEY))).map fieldDef.col))
          none none).rows = [] →
        self.GetByTable db table keys dao = .ok ⟨none, some .ErrNotFound, dao, self1,
          [.iter (GetN table keys
            ((defs.filter (fun d => decide (d.kind = NON_KEY))).map fieldDef.col))
            none none]⟩) ∧
      (∀ (row : List Scanned) (rest : List (List Scanned)),
        (db.iter (GetN table keys
          ((defs.filter (fun d => decide (d.kind = NON_KEY))).map fieldDef.col))
          none none).closeErr = none →
        (db.iter (GetN table keys
          ((defs.filter (fun d => decide (d.kind = NON_KEY))).map fieldDef.col))
          none none).rows = row :: rest →
        self.GetByTable db table keys dao =
          match setFieldsValues dao.val
            ((defs.filter (fun d => decide (d.kind = NON_KEY))).map fieldDef.name) row with
          | .error e => .error e
          | .ok val1 =>
            .ok ⟨some (({ dao with val := val1 } : DAO).runHook dao.PostLoad .PostLoad).1, none,
              (({ dao with val := val1 } : DAO).runHook dao.PostLoad .PostLoad).1, self1,
              [.iter (GetN table keys
                ((defs.filter (fun d => decide (d.kind = NON_KEY))).map fieldDef.col))
                none none] ++
              (({ dao with val := val1 } : DAO).runHook dao.PostLoad .PostLoad).2⟩) ∧
      self.GetBy db keys dao = self.GetByTable db (dao.TableName dao.val) keys dao ∧
      self.Get db dao =
        match self.Keys dao.val with
        | .error e => .error e
        | .ok (ks, self3) => self3.GetByTable db (dao.TableName dao.val) ks dao := by
  obtain ⟨self1, self2, h1, h2⟩ := get_names self dao.val defs hdef hc
  refine ⟨self2, ?_, ?_, ?_, rfl, rfl⟩
  · intro err herr
    unfold DataAccess.GetByTable
    simp only [h1, h2, hz, Iter.Scan, Iter.Close]
    cases hr : (db.iter (GetN table keys
      ((defs.filter (fun d => decide (d.kind = NON_KEY))).map fieldDef.col)) none none).rows <;>
      simp only [herr]
  · intro herr hrows
    unfold DataAccess.GetByTable
    simp only [h1, h2, hz, Iter.Scan, Iter.Close, hrows, herr]
    rfl
  · intro row rest herr hrows
    unfold DataAccess.GetByTable
    simp only [h1, h2, hz, Iter.Scan, Iter.Close, hrows, herr]
    simp only [Bool.not_true, Bool.false_eq_true, if_false]

/-- Witness of C13: the test record read from a store without rows is reported as not
found. -/
theorem GetByTable_spec_witness :
    ∃ self1 : DataAccess,
      NewDataAccess.GetByTable acceptAll "simple_dao" simpleKeys simpleDAO =
        .ok ⟨none, some .ErrNotFound, simpleDAO, self1,
          [.iter (GetN "simple_dao" simpleKeys
            ((simpleDefs.filter (fun d => decide (d.kind = NON_KEY))).map fieldDef.col))
            none none]⟩ := by
  obtain ⟨self1, _, h, _, _, _⟩ := GetByTable_spec NewDataAccess acceptAll "simple_dao" simpleKeys
    simpleDAO simpleDefs
    [.ref (Val.zero (.struct (.mk "time.Time" [
      .mk "wall" "" false (.basic .Uint64 (.uint 1)),
      .mk "ext" "" false (.basic .Int64 (.int 62135596842)),
      .mk "loc" "" false (.basic .Ptr (.other "time.Local"))]))),
     .ref (Val.zero (.ptr false (.mk "big.Int" [
      .mk "neg" "" false (.basic .Bool (.bool false)),
      .mk "abs" "" false (.basic .Slice (.other "nat[42]"))]))),
     .ref (Val.zero (.basic .Bool (.bool true)))]
    fieldDefs_simple (Or.inl rfl) (by rfl)
  exact ⟨self1, h rfl rfl⟩

/-- The columns that the partition cursors ask for and the field names that `Next` populates. -/
theorem cursor_names (self : DataAccess) (dao : Val) (defs : List fieldDef)
    (hdef : fieldDefs dao = .ok defs) (hc : self.agrees dao defs) :
    (∃ self1 : DataAccess, self1.agrees dao defs ∧
      self.colsToGet dao NON_KEY =
        .ok ((defs.filter (fun d => decide (d.kind = NON_KEY)) ++
          defs.filter (fun d => decide (d.kind = CLUSTERING_KEY))).map fieldDef.col, self1)) ∧
    (∃ self1 : DataAccess, self1.agrees dao defs ∧
      self.fieldsToGet dao =
        .ok ((defs.filter (fun d => decide (d.kind = NON_KEY)) ++
          defs.filter (fun d => decide (d.kind = CLUSTERING_KEY))).map fieldDef.name, self1)) := by
  constructor
  · obtain ⟨self1, hc1, h1⟩ := namesOfKind_role self dao defs hdef hc true NON_KEY (Or.inl rfl)
    obtain ⟨self2, hc2, h2⟩ := namesOfKind_role self1 dao defs hdef hc1 true CLUSTERING_KEY
      (Or.inr (Or.inr rfl))
    refine ⟨self2, hc2, ?_⟩
    simp only [DataAccess.colsToGet, DataAccess.ColNamesOfKind, h1, h2, List.map_append]
    simp
  · obtain ⟨self1, hc1, h1⟩ := namesOfKind_role self dao defs hdef hc false NON_KEY (Or.inl rfl)
    obtain ⟨self2, hc2, h2⟩ := namesOfKind_role self1 dao defs hdef hc1 false CLUSTERING_KEY
      (Or.inr (Or.inr rfl))
    refine ⟨self2, hc2, ?_⟩
    simp only [DataAccess.fieldsToGet, DataAccess.FieldNamesOfKind, h1, h2, List.map_append]
    simp

/-- With a row to come, `Next` populates the fields that are no keys followed by the clustering
key fields from the row and runs PostLoad. -/
theorem Next_row (self : DataAccess) (it : Iter) (dao : DAO) (defs : List fieldDef)
    (values row : List Scanned) (rest : List (List Scanned))
    (hdef : fieldDefs dao.val = .ok defs) (hc : self.agrees dao.val defs)
    (hz : fieldsZeroValuesArray dao.val
      ((defs.filter (fun d => decide (d.kind = NON_KEY)) ++
        defs.filter (fun d => decide (d.kind = CLUSTERING_KEY))).map fieldDef.name) = .ok values)
    (hrows : it.rows = row :: rest) :
    ∃ self1 : DataAccess, self.Next it dao =
      match setFieldsValues dao.val
        ((defs.filter (fun d => decide (d.kind = NON_KEY)) ++
          defs.filter (fun d => decide (d.kind = CLUSTERING_KEY))).map fieldDef.name) row with
      | .error e => .error e
      | .ok val1 =>
        .ok ⟨true, (({ dao with val := val1 } : DAO).runHook dao.PostLoad .PostLoad).1,
          { it with rows := rest }, self1,
          (({ dao with val := val1 } : DAO).runHook dao.PostLoad .PostLoad).2⟩ := by
  obtain ⟨self1, _, h1⟩ := (cursor_names self dao.val defs hdef hc).2
  refine ⟨self1, ?_⟩
  simp only [DataAccess.Next, h1, hz, Iter.Scan, hrows]
  simp only [Bool.not_true, Bool.false_eq_true, if_false]

/-! ## The hooks of the save operations -/

theorem runHook_some (dao : DAO) (h : Val → Val) (ev : Event) :
    dao.runHook (some h) ev = ({ dao with val := h dao.val }, [ev]) := rfl

/-- What `SaveTable` does when the fields of the record after PreSave can be read and `save`
builds the query `q` of their filters. -/
theorem SaveTable_outcome (self : DataAccess) (db : Session) (tableName : String) (dao : DAO)
    (r : Record) (defs : List fieldDef) (fs : List F) (q : Query)
    (hval : (dao.runHook dao.PreSave .PreSave).1.val = .ptr false r)
    (hdef : fieldDefs (.ptr false r) = .ok defs) (hc : self.agrees (.ptr false r) defs)
    (hfs : filtersOf (some r) defs = .ok fs) (hq : save tableName false fs = .ok q) :
    ∃ self1 : DataAccess, self.SaveTable db tableName dao =
      .ok ⟨db.exec q .LocalQuorum,
        ((dao.runHook dao.PreSave .PreSave).1.runHook dao.PostSave .PostSave).1, self1,
        (dao.runHook dao.PreSave .PreSave).2 ++ [Event.exec q .LocalQuorum] ++
          ((dao.runHook dao.PreSave .PreSave).1.runHook dao.PostSave .PostSave).2⟩ := by
  obtain ⟨self1, _, hF⟩ := fieldsOfKind_eq self false r defs hdef hc ANY []
  have hall : defs.filter (fun d => selected ANY d &&
      (decide (([] : List String).length = 0) || StringInList d.name [])) = defs := by
    rw [List.filter_eq_self]
    intro d _
    simp [selected_ANY]
  rw [hall] at hF
  simp only [Bool.false_eq_true, if_false, hfs] at hF
  refine ⟨self1, ?_⟩
  unfold DataAccess.SaveTable DataAccess.Fields CQLHelper.Save
  simp only [hval, hF, hq, (runHook_TableName dao dao.PreSave .PreSave).2]

/-- What `SavePartial` does when the key fields and the named fields of the record after
PreSave can be read and `save` builds the query `q` of their filters. -/
theorem SavePartial_outcome (self : DataAccess) (db : Session) (dao : DAO) (r : Record)
    (defs : List fieldDef) (names : List String) (keyFs others : List F) (q : Query)
    (hval : (dao.runHook dao.PreSave .PreSave).1.val = .ptr false r)
    (hdef : fieldDefs (.ptr false r) = .ok defs) (hc : self.agrees (.ptr false r) defs)
    (hkeys : filtersOf (some r) (defs.filter
      (fun d => decide (d.kind = PARTITION_KEY ∨ d.kind = CLUSTERING_KEY))) = .ok keyFs)
    (hothers : filtersOf (some r) (defs.filter (fun d => decide (d.kind = NON_KEY) &&
      (decide (names.length = 0) || StringInList d.name names))) = .ok others)
    (hq : save (dao.TableName (.ptr false r)) false (keyFs ++ others) = .ok q) :
    ∃ self1 : DataAccess, self.SavePartial db dao names =
      .ok ⟨db.exec q .LocalQuorum, (dao.runHook dao.PreSave .PreSave).1, self1,
        (dao.runHook dao.PreSave .PreSave).2 ++ [Event.exec q .LocalQuorum]⟩ := by
  obtain ⟨self1, hc1, hK⟩ := fieldsOfKind_eq self false r defs hdef hc ANY_KEY []
  have hkfilter : defs.filter (fun d => selected ANY_KEY d &&
      (decide (([] : List String).length = 0) || StringInList d.name [])) =
      defs.filter (fun d => decide (d.kind = PARTITION_KEY ∨ d.kind = CLUSTERING_KEY)) := by
    apply List.filter_congr
    intro d hd
    rw [selected_ANY_KEY d (fieldDefs_kinds _ defs hdef d hd)]
    simp
  rw [hkfilter] at hK
  simp only [Bool.false_eq_true, if_false, hkeys] at hK
  obtain ⟨self2, _, hN⟩ := fieldsOfKind_eq self1 false r defs hdef hc1 NON_KEY names
  have hnfilter : defs.filter (fun d => selected NON_KEY d &&
      (decide (names.length = 0) || StringInList d.name names)) =
      defs.filter (fun d => decide (d.kind = NON_KEY) &&
        (decide (names.length = 0) || StringInList d.name names)) := by
    apply List.filter_congr
    intro d _
    rw [selected_role NON_KEY d (Or.inl rfl)]
  rw [hnfilter] at hN
  simp only [Bool.false_eq_true, if_false, hothers] at hN
  refine ⟨self2, ?_⟩
  unfold DataAccess.SavePartial CQLHelper.Save DataAccess.Keys
  simp only [hval, hK, hN, (runHook_TableName dao dao.PreSave .PreSave).1, hq]

theorem save_values (table : String) (ine : Bool) (fs : List F) (q : Query)
    (hq : save table ine fs = .ok q) : q.values = fs.map (fun f => some f.Value) := by
  cases fs with
  | nil => simp [save] at hq
  | cons first rest =>
    rw [save_cons] at hq
    simp only [Except.ok.injEq] at hq
    rw [← hq]

/-- C15: for a record whose type implements PreSave and PostSave, with `r` the record after
PreSave: Save and SaveTable run PreSave once, then execute the insert of the filters read from
`r`, then run PostSave once, and return what the store reports for that insert; SavePartial runs
PreSave once, then executes the insert of the key filters and the named filters read from `r`,
returns what the store reports, and does not run PostSave. -/
theorem hooks_order (self : DataAccess) (db : Session) (dao : DAO) (pre post : Val → Val)
    (r : Record) (defs : List fieldDef) (fs keyFs others : List F) (names : List String)
    (q q2 : Query)
    (hpre : dao.PreSave = some pre) (hpost : dao.PostSave = some post)
    (hval : pre dao.val = .ptr false r)
    (hdef : fieldDefs (.ptr false r) = .ok defs) (hc : self.agrees (.ptr false r) defs)
    (hfs : filtersOf (some r) defs = .ok fs)
    (hq : save (dao.TableName dao.val) false fs = .ok q)
    (hkeys : filtersOf (some r) (defs.filter
      (fun d => decide (d.kind = PARTITION_KEY ∨ d.kind = CLUSTERING_KEY))) = .ok keyFs)
    (hothers : filtersOf (some r) (defs.filter (fun d => decide (d.kind = NON_KEY) &&
      (decide (names.length = 0) || StringInList d.name names))) = .ok others)
    (hq2 : save (dao.TableName (.ptr false r)) false (keyFs ++ others) = .ok q2) :
    (∃ out : SaveOutcome, self.Save db dao = .ok out ∧
      out.trace = [Event.PreSave, Event.exec q .LocalQuorum, Event.PostSave] ∧
      out.res = db.exec q .LocalQuorum ∧ out.dao.val = post (pre dao.val)) ∧
    q.values = fs.map (fun f => some f.Value) ∧
    (∀ (tableName : String) (q1 : Query), save tableName false fs = .ok q1 →
      ∃ out : SaveOutcome, self.SaveTable db tableName dao = .ok out ∧
        out.trace = [Event.PreSave, Event.exec q1 .LocalQuorum, Event.PostSave] ∧
        out.res = db.exec q1 .LocalQuorum ∧ out.dao.val = post (pre dao.val)) ∧
    (∃ out : SaveOutcome, self.SavePartial db dao names = .ok out ∧
      out.trace = [Event.PreSave, Event.exec q2 .LocalQuorum] ∧
      out.res = db.exec q2 .LocalQuorum ∧ out.dao.val = pre dao.val) ∧
    q2.values = (keyFs ++ others).map (fun f => some f.Value) := by
  have hval1 : (dao.runHook dao.PreSave .PreSave).1.val = .ptr false r := by
    rw [hpre, runHook_some]
    exact hval
  have htable : ∀ (tableName : String) (q1 : Query), save tableName false fs = .ok q1 →
      ∃ out : SaveOutcome, self.SaveTable db tableName dao = .ok out ∧
        out.trace = [Event.PreSave, Event.exec q1 .LocalQuorum, Event.PostSave] ∧
        out.res = db.exec q1 .LocalQuorum ∧ out.dao.val = post (pre dao.val) := by
    intro tableName q1 hq1
    obtain ⟨self1, h⟩ := SaveTable_outcome self db tableName dao r defs fs q1 hval1 hdef hc hfs hq1
    refine ⟨_, h, ?_, rfl, ?_⟩
    · simp only [hpre, hpost, runHook_some]
      rfl
    · simp only [hpre, hpost, runHook_some]
  refine ⟨htable _ q hq, save_values _ _ _ _ hq, htable, ?_, save_values _ _ _ _ hq2⟩
  obtain ⟨self1, h⟩ := SavePartial_outcome self db dao r defs names keyFs others q2 hval1 hdef hc
    hkeys hothers hq2
  refine ⟨_, h, ?_, rfl, ?_⟩
  · simp only [hpre, runHook_some]
    rfl
  · simp only [hpre, runHook_some]

/-- Witness of C15: the record with all hooks, saved wholly and saved partially with the field
ABool, in a store that accepts every write. -/
theorem hooks_order_witness :
    (∃ out : SaveOutcome, NewDataAccess.Save acceptAll hookedDAO = .ok out ∧
      out.trace = [Event.PreSave,
        Event.exec ⟨"insert into simple_dao (astring,some_bytes,abigint,anint,some_date_time," ++
          "avarint,abool) values (?, ?, ?, ?, ?, ?, ?)", simpleAll.map (fun f => some f.Value)⟩
          .LocalQuorum,
        Event.PostSave]) ∧
    (∃ out : SaveOutcome, NewDataAccess.SavePartial acceptAll hookedDAO ["ABool"] = .ok out ∧
      out.trace = [Event.PreSave,
        Event.exec ⟨"insert into simple_dao (astring,some_bytes,abigint,anint,abool) " ++
          "values (?, ?, ?, ?, ?)",
          (simpleKeys ++ [F.mk "abool" (.basic .Bool (.bool true))]).map
            (fun f => some f.Value)⟩ .LocalQuorum]) := by
  have h := hooks_order NewDataAccess acceptAll hookedDAO (fun _ => simple) (fun v => v)
    (.mk "dago.SimpleDao" simpleFields) simpleDefs simpleAll simpleKeys
    [F.mk "abool" (.basic .Bool (.bool true))] ["ABool"]
    ⟨"insert into simple_dao (astring,some_bytes,abigint,anint,some_date_time," ++
      "avarint,abool) values (?, ?, ?, ?, ?, ?, ?)", simpleAll.map (fun f => some f.Value)⟩
    ⟨"insert into simple_dao (astring,some_bytes,abigint,anint,abool) " ++
      "values (?, ?, ?, ?, ?)",
      (simpleKeys ++ [F.mk "abool" (.basic .Bool (.bool true))]).map (fun f => some f.Value)⟩
    rfl rfl rfl fieldDefs_simple (Or.inl rfl) (by rfl) (by rfl) (by rfl) (by rfl) (by rfl)
  obtain ⟨⟨out, h1, h2, _⟩, _, _, ⟨out2, h3, h4, _⟩, _⟩ := h
  exact ⟨⟨out, h1, h2⟩, ⟨out2, h3, h4⟩⟩

/-! ## Concurrent first lookups -/

/-- A step of a sound caller keeps the invariant and brings the caller nearer to its return. -/
theorem step_invariant (tname : String) (defs : List fieldDef) (cache : Cache)
    (callers : List Caller) (i : Nat) (c : Caller)
    (hinv : cacheInvariant tname defs cache callers) (hc : callers[i]? = some c) :
    cacheInvariant tname defs (c.step cache).2 (callers.set i (c.step cache).1) ∧
    (c.step cache).1.remaining ≤ c.remaining - 1 := by
  obtain ⟨hcache, hsound, hret⟩ := hinv
  have hcs : c.sound tname defs := hsound c (List.mem_iff_getElem?.mpr ⟨i, hc⟩)
  have hmem : ∀ (c1 x : Caller), x ∈ callers.set i c1 → x ∈ callers ∨ x = c1 :=
    fun c1 x hx => List.mem_or_eq_of_mem_set hx
  cases c with
  | start dao =>
    obtain ⟨ht, hd⟩ := hcs
    cases hg : cache.get tname with
    | none =>
      simp only [Caller.step, ht, hg]
      refine ⟨⟨Or.inl hg, ?_, ?_⟩, by simp [Caller.remaining]⟩
      · intro x hx
        rcases hmem _ x hx with h | h
        · exact hsound x h
        · rw [h]
          exact ⟨ht, hd⟩
      · rintro ⟨d, hx⟩
        rcases hmem _ _ hx with h | h
        · have := hret ⟨d, h⟩
          rw [hg] at this
          cases this
        · cases h
    | some d =>
      have hdd : d = defs := by
        rcases hcache with h | h
        · rw [hg] at h
          cases h
        · rw [hg] at h
          exact Option.some.inj h
      subst hdd
      simp only [Caller.step, ht, hg]
      refine ⟨⟨Or.inr hg, ?_, fun _ => hg⟩, by simp [Caller.remaining]⟩
      intro x hx
      rcases hmem _ x hx with h | h
      · exact hsound x h
      · rw [h]
        rfl
  | missed dao =>
    obtain ⟨ht, hd⟩ := hcs
    simp only [Caller.step, hd]
    refine ⟨⟨hcache, ?_, ?_⟩, by simp [Caller.remaining]⟩
    · intro x hx
      rcases hmem _ x hx with h | h
      · exact hsound x h
      · rw [h]
        exact ⟨ht, rfl⟩
    · rintro ⟨d, hx⟩
      rcases hmem _ _ hx with h | h
      · exact hret ⟨d, h⟩
      · cases h
  | classified dao d =>
    obtain ⟨ht, hd⟩ := hcs
    subst hd
    simp only [Caller.step, ht]
    refine ⟨⟨Or.inr (Cache.get_set _ _ _), ?_, fun _ => Cache.get_set _ _ _⟩,
      by simp [Caller.remaining]⟩
    intro x hx
    rcases hmem _ x hx with h | h
    · exact hsound x h
    · rw [h]
      rfl
  | returned d =>
    simp only [Caller.step]
    refine ⟨⟨hcache, ?_, ?_⟩, by simp [Caller.remaining]⟩
    · intro x hx
      rcases hmem _ x hx with h | h
      · exact hsound x h
      · rw [h]
        exact hcs
    · rintro ⟨e, _⟩
      exact hret ⟨d, List.mem_iff_getElem?.mpr ⟨i, hc⟩⟩
  | panicked e => exact absurd hcs (by simp [Caller.sound])

/-- Every schedule keeps the invariant, keeps the number of callers, and brings every caller
nearer to its return by the number of steps the schedule gives it. -/
theorem runSchedule_invariant (tname : String) (defs : List fieldDef) :
    ∀ (schedule : List Nat) (cache : Cache) (callers : List Caller),
      cacheInvariant tname defs cache callers →
      cacheInvariant tname defs (runSchedule schedule (cache, callers)).1
        (runSchedule schedule (cache, callers)).2 ∧
      (runSchedule schedule (cache, callers)).2.length = callers.length ∧
      ∀ (i : Nat) (c : Caller), callers[i]? = some c →
        ∃ c1, (runSchedule schedule (cache, callers)).2[i]? = some c1 ∧
          c1.remaining ≤ c.remaining - schedule.count i := by
  intro schedule
  induction schedule with
  | nil =>
    intro cache callers hinv
    exact ⟨hinv, rfl, fun i c hc => ⟨c, hc, by simp⟩⟩
  | cons k rest ih =>
    intro cache callers hinv
    rw [runSchedule]
    cases hk : callers[k]? with
    | none =>
      simp only []
      obtain ⟨h1, h2, h3⟩ := ih cache callers hinv
      refine ⟨h1, h2, ?_⟩
      intro i c hc
      obtain ⟨c1, hc1, hrem⟩ := h3 i c hc
      have hik : ¬ k = i := by
        intro e
        rw [e, hc] at hk
        cases hk
      refine ⟨c1, hc1, ?_⟩
      rw [List.count_cons]
      simp only [beq_iff_eq, hik, if_false, Nat.add_zero]
      exact hrem
    | some c0 =>
      simp only []
      obtain ⟨hstep, hrem0⟩ := step_invariant tname defs cache callers k c0 hinv hk
      obtain ⟨h1, h2, h3⟩ := ih (c0.step cache).2 (callers.set k (c0.step cache).1) hstep
      refine ⟨h1, by rw [h2, List.length_set], ?_⟩
      intro i c hc
      have hklt : k < callers.length := by
        rcases Nat.lt_or_ge k callers.length with h | h
        · exact h
        · rw [List.getElem?_eq_none h] at hk
          cases hk
      by_cases hik : k = i
      · subst hik
        rw [hk] at hc
        cases hc
        obtain ⟨c1, hc1, hrem⟩ := h3 k (c0.step cache).1 (by simp [List.getElem?_set, hklt])
        refine ⟨c1, hc1, ?_⟩
        rw [List.count_cons]
        simp only [beq_self_eq_true, if_true]
        omega
      · obtain ⟨c1, hc1, hrem⟩ := h3 i c (by simp [List.getElem?_set, hik, hc])
        refine ⟨c1, hc1, ?_⟩
        rw [List.count_cons]
        simp only [beq_iff_eq, hik, if_false, Nat.add_zero]
        exact hrem

/-- C18: callers that look up, on a cache without an entry for the type, records of one type
whose classification is `defs`, in any interleaving of their steps (the read under the shared
lock, the classification outside any lock, the write under the exclusive lock): no caller
panics, every caller that has returned has `defs`, and the cache then holds `defs`; when the
schedule lets every caller take its three steps, all callers have returned `defs`. A caller
that runs alone does what `initFieldsDefs` does. -/
theorem concurrent_first_lookup (cache0 : Cache) (daos : List Val) (tname : String)
    (defs : List fieldDef) (schedule : List Nat)
    (hsame : ∀ dao ∈ daos, dao.typeString = tname ∧ fieldDefs dao = .ok defs)
    (hfirst : cache0.get tname = none)
    (hfair : ∀ i, i < daos.length → 3 ≤ schedule.count i) :
    (runSchedule schedule (cache0, daos.map Caller.start)).2 =
      daos.map (fun _ => Caller.returned defs) ∧
    (daos ≠ [] → (runSchedule schedule (cache0, daos.map Caller.start)).1.get tname =
      some defs) ∧
    (∀ (sched : List Nat) (d : List fieldDef),
      Caller.returned d ∈ (runSchedule sched (cache0, daos.map Caller.start)).2 →
      d = defs ∧ (runSchedule sched (cache0, daos.map Caller.start)).1.get tname = some defs) ∧
    (∀ (sched : List Nat) (e : Fault),
      Caller.panicked e ∉ (runSchedule sched (cache0, daos.map Caller.start)).2) ∧
    (∀ (self : DataAccess) (dao : Val), self.initFieldsDefs dao =
      match runSchedule [0, 0, 0] (self.fieldDefsCache, [Caller.start dao]) with
      | (cache, [Caller.returned d]) => .ok (d, ⟨cache⟩)
      | (_, [Caller.panicked e]) => .error e
      | _ => .error .reflectPanic) := by
  have hinit : cacheInvariant tname defs cache0 (daos.map Caller.start) := by
    refine ⟨Or.inl hfirst, ?_, ?_⟩
    · intro c hc
      obtain ⟨dao, hdao, rfl⟩ := List.mem_map.mp hc
      exact hsame dao hdao
    · rintro ⟨d, hd⟩
      obtain ⟨dao, _, h⟩ := List.mem_map.mp hd
      cases h
  have hsafe : ∀ (sched : List Nat) (d : List fieldDef),
      Caller.returned d ∈ (runSchedule sched (cache0, daos.map Caller.start)).2 →
      d = defs ∧ (runSchedule sched (cache0, daos.map Caller.start)).1.get tname =
        some defs := by
    intro sched d hd
    obtain ⟨⟨_, hsound, hret⟩, _, _⟩ :=
      runSchedule_invariant tname defs sched cache0 _ hinit
    exact ⟨hsound _ hd, hret ⟨d, hd⟩⟩
  obtain ⟨⟨_, hsound, _⟩, hlen, hrem⟩ :=
    runSchedule_invariant tname defs schedule cache0 _ hinit
  have hall : (runSchedule schedule (cache0, daos.map Caller.start)).2 =
      daos.map (fun _ => Caller.returned defs) := by
    apply List.ext_getElem?
    intro i
    rw [List.getElem?_map]
    cases hi : daos[i]? with
    | none =>
      rw [List.getElem?_eq_none_iff] at hi
      have : (runSchedule schedule (cache0, daos.map Caller.start)).2[i]? = none := by
        rw [List.getElem?_eq_none_iff, hlen]
        simpa using hi
      rw [this]
      rfl
    | some dao =>
      have hilt : i < daos.length := by
        rcases Nat.lt_or_ge i daos.length with h | h
        · exact h
        · rw [List.getElem?_eq_none h] at hi
          cases hi
      obtain ⟨c1, hc1, hr⟩ := hrem i (Caller.start dao) (by simp [List.getElem?_map, hi])
      have h3 := hfair i hilt
      have hstart : (Caller.start dao).remaining = 3 := rfl
      have hzero : c1.remaining = 0 := by
        rw [hstart] at hr
        omega
      have hs := hsound c1 (List.mem_iff_getElem?.mpr ⟨i, hc1⟩)
      rw [hc1]
      cases c1 with
      | start d => simp [Caller.remaining] at hzero
      | missed d => simp [Caller.remaining] at hzero
      | classified d x => simp [Caller.remaining] at hzero
      | returned d =>
        have : d = defs := hs
        subst this
        rfl
      | panicked e => exact absurd hs (by simp [Caller.sound])
  refine ⟨hall, ?_, hsafe, ?_, ?_⟩
  · intro hne
    cases daos with
    | nil => exact absurd rfl hne
    | cons dao rest =>
      exact (hsafe schedule defs (by rw [hall]; simp)).2
  · intro sched e he
    obtain ⟨⟨_, hsound2, _⟩, _, _⟩ := runSchedule_invariant tname defs sched cache0 _ hinit
    exact absurd (hsound2 _ he) (by simp [Caller.sound])
  · intro self dao
    unfold DataAccess.initFieldsDefs
    cases hg : self.fieldDefsCache.get dao.typeString with
    | some d => simp [runSchedule, Caller.step, hg]
    | none =>
      cases hd : fieldDefs dao with
      | error e => simp [runSchedule, Caller.step, hg, hd]
      | ok d => simp [runSchedule, Caller.step, hg, hd]

/-- Witness of C18: two callers with the test record on an empty cache, taking their steps in
turn. -/
theorem concurrent_first_lookup_witness :
    (runSchedule [0, 1, 0, 1, 0, 1] ([], [simple, simple].map Caller.start)).2 =
      [simple, simple].map (fun _ => Caller.returned simpleDefs) ∧
    ([simple, simple] ≠ [] →
      (runSchedule [0, 1, 0, 1, 0, 1] ([], [simple, simple].map Caller.start)).1.get
        "*dago.SimpleDao" = some simpleDefs) :=
  ⟨(concurrent_first_lookup [] [simple, simple] "*dago.SimpleDao" simpleDefs
      [0, 1, 0, 1, 0, 1] (by decide) rfl (by
        intro i hi
        have : i = 0 ∨ i = 1 := by
          simp only [List.length_cons, List.length_nil] at hi
          omega
        rcases this with rfl | rfl <;> decide)).1,
    (concurrent_first_lookup [] [simple, simple] "*dago.SimpleDao" simpleDefs
      [0, 1, 0, 1, 0, 1] (by decide) rfl (by
        intro i hi
        have : i = 0 ∨ i = 1 := by
          simp only [List.length_cons, List.length_nil] at hi
          omega
        rcases this with rfl | rfl <;> decide)).2.1⟩

/-! ## SavePartial without field names -/

/-- The filters of the definitions split by two complementary tests: both parts can be read when
the whole list can, and together they are a permutation of the filters of the whole list. -/
theorem filtersOf_split (v : StructValue) (p q : fieldDef → Bool) :
    ∀ (defs : List fieldDef) (fs : List F), (∀ d ∈ defs, q d = !p d) →
      filtersOf v defs = .ok fs →
      ∃ a b : List F, filtersOf v (defs.filter p) = .ok a ∧
        filtersOf v (defs.filter q) = .ok b ∧ (a ++ b).Perm fs := by
  intro defs
  induction defs with
  | nil =>
    intro fs _ h
    simp only [filtersOf, Except.ok.injEq] at h
    subst h
    exact ⟨[], [], rfl, rfl, List.Perm.refl _⟩
  | cons d rest ih =>
    intro fs hpq h
    cases hd : filterOf v d with
    | error e => simp [filtersOf, hd] at h
    | ok x =>
      cases hr : filtersOf v rest with
      | error e => simp [filtersOf, hd, hr] at h
      | ok xs =>
        simp only [filtersOf, hd, hr, Except.ok.injEq] at h
        subst h
        obtain ⟨a, b, ha, hb, hperm⟩ :=
          ih xs (fun d1 h1 => hpq d1 (List.mem_cons_of_mem _ h1)) hr
        have hqd := hpq d (List.mem_cons_self _ _)
        cases hp : p d with
        | true =>
          rw [hp] at hqd
          refine ⟨x :: a, b, ?_, ?_, List.Perm.cons x hperm⟩
          · simp [List.filter_cons, hp, filtersOf, hd, ha]
          · simpa [List.filter_cons, hqd] using hb
        | false =>
          rw [hp] at hqd
          refine ⟨a, x :: b, ?_, ?_, List.perm_middle.trans (List.Perm.cons x hperm)⟩
          · simpa [List.filter_cons, hp] using ha
          · simp [List.filter_cons, hqd, filtersOf, hd, hb]

/-- The filters of a sublist of the definitions are a sublist of the filters. -/
theorem filtersOf_sublist (v : StructValue) (l defs : List fieldDef) (h : l.Sublist defs) :
    ∀ fs : List F, filtersOf v defs = .ok fs →
      ∃ fs1 : List F, filtersOf v l = .ok fs1 ∧ fs1.Sublist fs := by
  induction h with
  | slnil =>
    intro fs hfs
    exact ⟨[], rfl, List.nil_sublist _⟩
  | @cons l1 l2 d _ ih =>
    intro fs hfs
    cases hd : filterOf v d with
    | error e => simp [filtersOf, hd] at hfs
    | ok x =>
      cases hr : filtersOf v l2 with
      | error e => simp [filtersOf, hd, hr] at hfs
      | ok xs =>
        simp only [filtersOf, hd, hr, Except.ok.injEq] at hfs
        subst hfs
        obtain ⟨fs1, h1, h2⟩ := ih xs hr
        exact ⟨fs1, h1, List.Sublist.cons x h2⟩
  | @cons₂ l1 l2 d _ ih =>
    intro fs hfs
    cases hd : filterOf v d with
    | error e => simp [filtersOf, hd] at hfs
    | ok x =>
      cases hr : filtersOf v l2 with
      | error e => simp [filtersOf, hd, hr] at hfs
      | ok xs =>
        simp only [filtersOf, hd, hr, Except.ok.injEq] at hfs
        subst hfs
        obtain ⟨fs1, h1, h2⟩ := ih xs hr
        exact ⟨x :: fs1, by simp [filtersOf, hd, h1], List.Sublist.cons₂ x h2⟩

/-- The filters of a list of definitions are as many as the definitions. -/
theorem filtersOf_length (v : StructValue) (ds : List fieldDef) (fs : List F)
    (h : filtersOf v ds = .ok fs) : fs.length = ds.length := by
  have := congrArg List.length (filtersOf_names v ds fs h)
  simpa using this

/-- With no field names the test of `fieldsOfKind` on the names lets every definition through. -/
theorem filter_no_names (defs : List fieldDef) :
    defs.filter (fun d => decide (d.kind = NON_KEY) &&
      (decide (([] : List String).length = 0) || StringInList d.name [])) =
    defs.filter (fun d => decide (d.kind = NON_KEY)) := by
  apply List.filter_congr
  intro d _
  simp

/-- A non-empty list of filters is accepted by `save`. -/
theorem save_ok_of_ne_nil (table : String) (ine : Bool) (fs : List F) (h : fs ≠ []) :
    ∃ q : Query, save table ine fs = .ok q := by
  cases fs with
  | nil => exact absurd rfl h
  | cons first rest => exact ⟨_, save_cons table ine first rest⟩

/-- The definitions of the classifier are split into keys and ordinary ones. -/
theorem kinds_complement (v : Val) (defs : List fieldDef) (hdef : fieldDefs v = .ok defs) :
    ∀ d ∈ defs, decide (d.kind = NON_KEY) =
      !decide (d.kind = PARTITION_KEY ∨ d.kind = CLUSTERING_KEY) := by
  intro d hd
  rcases fieldDefs_kinds v defs hdef d hd with h | h | h <;>
    simp [h, NON_KEY, PARTITION_KEY, CLUSTERING_KEY]

/-- The ordinary definitions that pass the test on the names are among the ordinary ones. -/
theorem named_sublist (defs : List fieldDef) (names : List String) :
    (defs.filter (fun d => decide (d.kind = NON_KEY) &&
      (decide (names.length = 0) || StringInList d.name names))).Sublist
      (defs.filter (fun d => decide (d.kind = NON_KEY))) := by
  apply List.monotone_filter_right
  intro d h
  simp only [Bool.and_eq_true] at h
  exact h.1

/-- C21: for every record `r` (after PreSave) with at least one field definition whose fields
can all be read, SavePartial called without field names executes the insert built from the key
filters followed by the filters of every ordinary (NON_KEY) definition; this list is a
permutation of the filters `fs` from which Save builds its insert, so the bound values are a
permutation of those Save binds. For an arbitrary name list the ordinary filters written are a
sublist of these, and with the empty list they are all of them. -/
theorem SavePartial_without_names (self : DataAccess) (db : Session) (dao : DAO) (r : Record)
    (defs : List fieldDef) (fs : List F)
    (hval : (dao.runHook dao.PreSave .PreSave).1.val = .ptr false r)
    (hdef : fieldDefs (.ptr false r) = .ok defs) (hc : self.agrees (.ptr false r) defs)
    (hfs : filtersOf (some r) defs = .ok fs) (hne : defs ≠ []) :
    ∃ (keyFs otherFs : List F) (q q1 : Query),
      filtersOf (some r) (defs.filter
        (fun d => decide (d.kind = PARTITION_KEY ∨ d.kind = CLUSTERING_KEY))) = .ok keyFs ∧
      filtersOf (some r) (defs.filter (fun d => decide (d.kind = NON_KEY))) = .ok otherFs ∧
      save (dao.TableName (.ptr false r)) false (keyFs ++ otherFs) = .ok q ∧
      (∃ out : SaveOutcome, self.SavePartial db dao [] = .ok out ∧
        out.trace = (dao.runHook dao.PreSave .PreSave).2 ++ [Event.exec q .LocalQuorum]) ∧
      save (dao.TableName dao.val) false fs = .ok q1 ∧
      (∃ out1 : SaveOutcome, self.Save db dao = .ok out1 ∧
        out1.trace = (dao.runHook dao.PreSave .PreSave).2 ++ [Event.exec q1 .LocalQuorum] ++
          ((dao.runHook dao.PreSave .PreSave).1.runHook dao.PostSave .PostSave).2) ∧
      (keyFs ++ otherFs).Perm fs ∧
      q.values.Perm q1.values ∧
      (∀ names : List String, ∃ others : List F,
        filtersOf (some r) (defs.filter (fun d => decide (d.kind = NON_KEY) &&
          (decide (names.length = 0) || StringInList d.name names))) = .ok others ∧
        others.Sublist otherFs ∧ (names = [] → others = otherFs) ∧
        ∀ q2 : Query, save (dao.TableName (.ptr false r)) false (keyFs ++ others) = .ok q2 →
          ∃ out2 : SaveOutcome, self.SavePartial db dao names = .ok out2 ∧
            out2.trace = (dao.runHook dao.PreSave .PreSave).2 ++
              [Event.exec q2 .LocalQuorum]) := by
  obtain ⟨keyFs, otherFs, hk, ho, hperm⟩ := filtersOf_split (some r)
    (fun d => decide (d.kind = PARTITION_KEY ∨ d.kind = CLUSTERING_KEY))
    (fun d => decide (d.kind = NON_KEY)) defs fs (kinds_complement _ defs hdef) hfs
  have hfsne : fs ≠ [] := by
    intro h
    have hl := filtersOf_length _ _ _ hfs
    rw [h] at hl
    exact hne (List.length_eq_zero.mp hl.symm)
  have hkone : keyFs ++ otherFs ≠ [] := by
    intro h
    rw [h] at hperm
    exact hfsne (List.Perm.nil_eq hperm).symm
  obtain ⟨q, hq⟩ := save_ok_of_ne_nil (dao.TableName (.ptr false r)) false _ hkone
  obtain ⟨q1, hq1⟩ := save_ok_of_ne_nil (dao.TableName dao.val) false _ hfsne
  have hpartial : ∀ (names : List String) (others : List F) (q2 : Query),
      filtersOf (some r) (defs.filter (fun d => decide (d.kind = NON_KEY) &&
        (decide (names.length = 0) || StringInList d.name names))) = .ok others →
      save (dao.TableName (.ptr false r)) false (keyFs ++ others) = .ok q2 →
      ∃ out2 : SaveOutcome, self.SavePartial db dao names = .ok out2 ∧
        out2.trace = (dao.runHook dao.PreSave .PreSave).2 ++ [Event.exec q2 .LocalQuorum] := by
    intro names others q2 hothers hq2
    obtain ⟨self1, h⟩ := SavePartial_outcome self db dao r defs names keyFs others q2 hval hdef
      hc hk hothers hq2
    exact ⟨_, h, rfl⟩
  refine ⟨keyFs, otherFs, q, q1, hk, ho, hq, ?_, hq1, ?_, hperm, ?_, ?_⟩
  · exact hpartial [] otherFs q (by rw [filter_no_names]; exact ho) hq
  · obtain ⟨self1, h⟩ := SaveTable_outcome self db (dao.TableName dao.val) dao r defs fs q1 hval
      hdef hc hfs hq1
    exact ⟨_, h, rfl⟩
  · rw [save_values _ _ _ _ hq, save_values _ _ _ _ hq1]
    exact hperm.map _
  · intro names
    obtain ⟨others, hothers, hsub⟩ := filtersOf_sublist (some r) _ _ (named_sublist defs names)
      otherFs ho
    refine ⟨others, hothers, hsub, ?_, fun q2 hq2 => hpartial names others q2 hothers hq2⟩
    intro hnil
    subst hnil
    rw [filter_no_names, ho] at hothers
    exact (Except.ok.inj hothers).symm

/-- Witness of C21: the record `note`, whose ordinary field text is declared before its key
id. Without names SavePartial writes the key and then the text, Save writes them in the order
of declaration, and with the name of a field that does not exist SavePartial writes the key
only. -/
theorem SavePartial_without_names_witness :
    (∃ out : SaveOutcome, NewDataAccess.SavePartial acceptAll noteDAO [] = .ok out ∧
      out.trace = [Event.exec ⟨"insert into note (id,text) values (?, ?)",
        [some (.basic .String (.str "n1")), some (.basic .String (.str "hello"))]⟩
        .LocalQuorum]) ∧
    (∃ out1 : SaveOutcome, NewDataAccess.Save acceptAll noteDAO = .ok out1 ∧
      out1.trace = [Event.exec ⟨"insert into note (text,id) values (?, ?)",
        [some (.basic .String (.str "hello")), some (.basic .String (.str "n1"))]⟩
        .LocalQuorum]) ∧
    (∃ out2 : SaveOutcome, NewDataAccess.SavePartial acceptAll noteDAO ["Other"] = .ok out2 ∧
      out2.trace = [Event.exec ⟨"insert into note (id) values (?)",
        [some (.basic .String (.str "n1"))]⟩ .LocalQuorum]) := by
  obtain ⟨keyFs, otherFs, q, q1, hk, ho, hq, hp, hq1, hs, _, _, hn⟩ :=
    SavePartial_without_names NewDataAccess acceptAll noteDAO
      (.mk "dago.Note" [
        .mk "Text" "text" false (.basic .String (.str "hello")),
        .mk "Id" "id,key" false (.basic .String (.str "n1"))])
      [⟨0, "Text", "text", NON_KEY⟩, ⟨1, "Id", "id", PARTITION_KEY⟩]
      [⟨"text", .basic .String (.str "hello")⟩, ⟨"id", .basic .String (.str "n1")⟩]
      rfl (by rfl) (Or.inl rfl) (by rfl) (by simp)
  have hk1 : keyFs = [⟨"id", .basic .String (.str "n1")⟩] := (Except.ok.inj hk).symm
  have ho1 : otherFs = [⟨"text", .basic .String (.str "hello")⟩] := (Except.ok.inj ho).symm
  subst hk1 ho1
  have hqv : q = ⟨"insert into note (id,text) values (?, ?)",
      [some (.basic .String (.str "n1")), some (.basic .String (.str "hello"))]⟩ :=
    (Except.ok.inj hq).symm
  have hq1v : q1 = ⟨"insert into note (text,id) values (?, ?)",
      [some (.basic .String (.str "hello")), some (.basic .String (.str "n1"))]⟩ :=
    (Except.ok.inj hq1).symm
  subst hqv hq1v
  obtain ⟨others, hoth, _, _, hsave⟩ := hn ["Other"]
  have hoth1 : others = [] := (Except.ok.inj hoth).symm
  subst hoth1
  exact ⟨hp, hs, hsave ⟨"insert into note (id) values (?)",
    [some (.basic .String (.str "n1"))]⟩ rfl⟩

/-! ## The partial save of one field -/

end Dago
